import Mathlib

/-!
A verification development for the `fastcache` sharded FIFO cache.

The Go package stores key-value pairs in 512 independently locked shards.
Each shard owns an association map, a fixed circular buffer (`order`) of
`keySlot` records tracking insertion order, a write cursor, and operation
counters.  A single global `entryCount` enforces the configured capacity.

This file is a shallow embedding of the package, executed sequentially:
every operation is a pure state transformer on a `Cache` value, the seeded
`maphash` router is an explicit `hash : K → Nat` parameter, Go maps become
association lists with distinct keys, and the `gob`/`snappy` snapshot codec
becomes a token stream (the spec treats the codec as a pluggable collaborator
with `decode (encode x) = x`).
-/

namespace Fastcache

/-- Number of shards; `const shardsCount = 512` in the source. -/
def shardsCount : Nat := 512

/-- One ring-buffer slot: a key plus whether the slot is still valid
(`keySlot` in the source; the Go zero value is modelled by `default`). -/
structure keySlot (K : Type) where
  key : K
  valid : Bool
  deriving DecidableEq

/-- The zero `keySlot`, written `keySlot[K]{}` in Go. -/
def emptySlot {K : Type} [Inhabited K] : keySlot K := ⟨default, false⟩

/-- One shard: counters, the entries map, the eviction ring and the write
cursor (`shard` in the source).  The Go map is an association list whose
keys stay pairwise distinct along every reachable execution. -/
structure Shard (K V : Type) where
  getCalls : Nat
  setCalls : Nat
  misses : Nat
  deletes : Nat
  evictions : Nat
  entries : List (K × V)
  order : List (keySlot K)
  writeIdx : Nat
  deriving DecidableEq

/-- The cache: 512 shards, the capacity, and the global live-entry counter
(`Cache` in the source; `entryCount` is an `atomic.Int64`). -/
structure Cache (K V : Type) where
  shards : Fin shardsCount → Shard K V
  maxEntries : Nat
  entryCount : Int

section AssocList

variable {K V : Type} [DecidableEq K]

/-- Go map read `v, ok := m[k]`. -/
def lookupA : List (K × V) → K → Option V
  | [], _ => none
  | (k', v) :: t, k => if k = k' then some v else lookupA t k

/-- Go map write `m[k] = v`: update in place if present, else add. -/
def insertA : List (K × V) → K → V → List (K × V)
  | [], k, v => [(k, v)]
  | (k', v') :: t, k, v =>
    if k = k' then (k, v) :: t else (k', v') :: insertA t k v

/-- Go map removal `delete(m, k)`. -/
def eraseA : List (K × V) → K → List (K × V)
  | [], _ => []
  | (k', v') :: t, k => if k = k' then t else (k', v') :: eraseA t k

end AssocList

section ShardOps

variable {K V : Type} [DecidableEq K] [Inhabited K]

/-- Ring slots allotted to each shard:
`entriesPerShard := (maxEntries + shardsCount - 1) / shardsCount` in `New`. -/
def entriesPerShard (maxEntries : Nat) : Nat :=
  (maxEntries + shardsCount - 1) / shardsCount

/-- A freshly constructed shard, as initialised by `New`. -/
def freshShard (maxEntries : Nat) : Shard K V :=
  { getCalls := 0, setCalls := 0, misses := 0, deletes := 0, evictions := 0
    entries := []
    order := List.replicate (entriesPerShard maxEntries) emptySlot
    writeIdx := 0 }

/-- `New(maxEntries)`: a cache of empty shards, each with a ring of
`entriesPerShard` zero slots, and a zero global counter.  (The Go function
panics when `maxEntries <= 0`; theorems that depend on the constructor
contract carry `0 < maxEntries`.) -/
def New (K V : Type) [DecidableEq K] [Inhabited K] (maxEntries : Nat) :
    Cache K V :=
  { shards := fun _ => freshShard maxEntries
    maxEntries := maxEntries
    entryCount := 0 }

/-- One iteration body of the eviction loop in `shard.set` (and the
identical loops in `getOrSet`/`setIfAbsent`): inspect the slot at
`writeIdx`, evict or lazily invalidate, and advance the cursor modulo the
ring length.  The pair carries the shard together with the global counter. -/
def evictStep (p : Shard K V × Int) : Shard K V × Int :=
  let s := p.1
  let slot := s.order.getD s.writeIdx emptySlot
  if slot.valid then
    if (lookupA s.entries slot.key).isSome then
      ({ s with entries := eraseA s.entries slot.key
                order := s.order.set s.writeIdx { slot with valid := false }
                evictions := s.evictions + 1
                writeIdx := (s.writeIdx + 1) % s.order.length },
        p.2 - 1)
    else
      ({ s with order := s.order.set s.writeIdx { slot with valid := false }
                writeIdx := (s.writeIdx + 1) % s.order.length },
        p.2)
  else
    ({ s with writeIdx := (s.writeIdx + 1) % s.order.length }, p.2)

/-- The eviction loop
`for i := 0; i < maxIter && entryCount >= maxEntries && len(entries) > 0; i++`.
The fuel argument is the remaining iteration budget; the loop is entered
with fuel `len(order)`. -/
def evictLoop (maxEntries : Nat) : Nat → Shard K V × Int → Shard K V × Int
  | 0, p => p
  | fuel + 1, p =>
    if (maxEntries : Int) ≤ p.2 ∧ 0 < p.1.entries.length then
      evictLoop maxEntries fuel (evictStep p)
    else p

/-- The insertion epilogue shared by `set`/`getOrSet`/`setIfAbsent`: write
an occupied slot for `k` at the cursor, advance the cursor, insert the
entry, increment the global counter. -/
def insertFresh (k : K) (v : V) (p : Shard K V × Int) : Shard K V × Int :=
  let s := p.1
  ({ s with order := s.order.set s.writeIdx ⟨k, true⟩
            writeIdx := (s.writeIdx + 1) % s.order.length
            entries := insertA s.entries k v },
    p.2 + 1)

/-- `shard.set`: bump `setCalls`; update in place when the key exists,
otherwise run the eviction loop and insert. -/
def Shard.set (maxEntries : Nat) (s : Shard K V) (count : Int)
    (k : K) (v : V) : Shard K V × Int :=
  let s := { s with setCalls := s.setCalls + 1 }
  if (lookupA s.entries k).isSome then
    ({ s with entries := insertA s.entries k v }, count)
  else
    insertFresh k v (evictLoop maxEntries s.order.length (s, count))

/-- `shard.get`: bump `getCalls`, look up, bump `misses` on a miss.  The
Go function returns `(zeroValue, false)` on a miss, modelled as `none`. -/
def Shard.get (s : Shard K V) (k : K) : Option V × Shard K V :=
  let s := { s with getCalls := s.getCalls + 1 }
  match lookupA s.entries k with
  | some v => (some v, s)
  | none => (none, { s with misses := s.misses + 1 })

/-- `shard.getOrSet`: on a hit bump `getCalls` and return the existing
value with `loaded = true`; on a miss bump `setCalls`, run the same
eviction loop and insertion as `set`, and return `(v, false)`. -/
def Shard.getOrSet (maxEntries : Nat) (s : Shard K V) (count : Int)
    (k : K) (v : V) : (V × Bool) × Shard K V × Int :=
  match lookupA s.entries k with
  | some existing => ((existing, true), { s with getCalls := s.getCalls + 1 }, count)
  | none =>
    let s := { s with setCalls := s.setCalls + 1 }
    ((v, false), insertFresh k v (evictLoop maxEntries s.order.length (s, count)))

/-- `shard.setIfAbsent`: on a hit return `false` without touching anything;
on a miss bump `setCalls`, run the eviction loop and insertion, return
`true`. -/
def Shard.setIfAbsent (maxEntries : Nat) (s : Shard K V) (count : Int)
    (k : K) (v : V) : Bool × Shard K V × Int :=
  if (lookupA s.entries k).isSome then
    (false, s, count)
  else
    let s := { s with setCalls := s.setCalls + 1 }
    (true, insertFresh k v (evictLoop maxEntries s.order.length (s, count)))

/-- `shard.delete`: bump `deletes` unconditionally; when present, remove
the key and decrement the global counter.  The ring is not touched. -/
def Shard.delete (s : Shard K V) (count : Int) (k : K) : Shard K V × Int :=
  let s := { s with deletes := s.deletes + 1 }
  if (lookupA s.entries k).isSome then
    ({ s with entries := eraseA s.entries k }, count - 1)
  else
    (s, count)

/-- `shard.getAndDelete`: bump `deletes` unconditionally; on a hit remove
and decrement, returning the previous value. -/
def Shard.getAndDelete (s : Shard K V) (count : Int) (k : K) :
    Option V × Shard K V × Int :=
  let s := { s with deletes := s.deletes + 1 }
  match lookupA s.entries k with
  | some v => (some v, { s with entries := eraseA s.entries k }, count - 1)
  | none => (none, s, count)

/-- `shard.reset`: fresh empty map, every slot zeroed in place, cursor and
all counters zeroed. -/
def Shard.reset (s : Shard K V) : Shard K V :=
  { getCalls := 0, setCalls := 0, misses := 0, deletes := 0, evictions := 0
    entries := []
    order := s.order.map (fun _ => emptySlot)
    writeIdx := 0 }

end ShardOps

section CacheOps

variable {K V : Type} [DecidableEq K] [Inhabited K] (hash : K → Nat)

/-- Key routing: `idx := hashKey(k) % shardsCount`.  The seeded `maphash`
digest is the explicit `hash` parameter. -/
def shardIdx (k : K) : Fin shardsCount :=
  ⟨hash k % shardsCount, Nat.mod_lt _ (by decide)⟩

/-- `Cache.Set`. -/
def Cache.set (c : Cache K V) (k : K) (v : V) : Cache K V :=
  let i := shardIdx hash k
  let r := Shard.set c.maxEntries (c.shards i) c.entryCount k v
  { c with shards := Function.update c.shards i r.1, entryCount := r.2 }

/-- `Cache.Get`. -/
def Cache.get (c : Cache K V) (k : K) : Option V × Cache K V :=
  let i := shardIdx hash k
  let r := Shard.get (c.shards i) k
  (r.1, { c with shards := Function.update c.shards i r.2 })

/-- `Cache.Has`. -/
def Cache.has (c : Cache K V) (k : K) : Bool × Cache K V :=
  let r := Cache.get hash c k
  (r.1.isSome, r.2)

/-- `Cache.GetOrSet`. -/
def Cache.getOrSet (c : Cache K V) (k : K) (v : V) : (V × Bool) × Cache K V :=
  let i := shardIdx hash k
  let r := Shard.getOrSet c.maxEntries (c.shards i) c.entryCount k v
  (r.1, { c with shards := Function.update c.shards i r.2.1, entryCount := r.2.2 })

/-- `Cache.SetIfAbsent`. -/
def Cache.setIfAbsent (c : Cache K V) (k : K) (v : V) : Bool × Cache K V :=
  let i := shardIdx hash k
  let r := Shard.setIfAbsent c.maxEntries (c.shards i) c.entryCount k v
  (r.1, { c with shards := Function.update c.shards i r.2.1, entryCount := r.2.2 })

/-- `Cache.Delete`. -/
def Cache.delete (c : Cache K V) (k : K) : Cache K V :=
  let i := shardIdx hash k
  let r := Shard.delete (c.shards i) c.entryCount k
  { c with shards := Function.update c.shards i r.1, entryCount := r.2 }

/-- `Cache.GetAndDelete`. -/
def Cache.getAndDelete (c : Cache K V) (k : K) : Option V × Cache K V :=
  let i := shardIdx hash k
  let r := Shard.getAndDelete (c.shards i) c.entryCount k
  (r.1, { c with shards := Function.update c.shards i r.2.1, entryCount := r.2.2 })

/-- `Cache.Reset`: reset every shard, then store 0 into the global counter. -/
def Cache.reset (c : Cache K V) : Cache K V :=
  { c with shards := fun i => Shard.reset (c.shards i), entryCount := 0 }

/-- `Cache.Len`: the global counter, read directly. -/
def Cache.len (c : Cache K V) : Int := c.entryCount

/-- Pure observation of the resident value for a key (the option that
`Get` returns, without the counter side effects). -/
def Cache.peek (c : Cache K V) (k : K) : Option V :=
  lookupA (c.shards (shardIdx hash k)).entries k

/-- Sum of the per-shard map sizes: the exact number of resident entries. -/
def Cache.totalSize (c : Cache K V) : Nat :=
  ∑ i : Fin shardsCount, (c.shards i).entries.length

end CacheOps

/-! ### Association-list lemmas -/

section AssocLemmas

variable {K V : Type} [DecidableEq K]

theorem lookupA_none_iff (l : List (K × V)) (k : K) :
    lookupA l k = none ↔ k ∉ l.map Prod.fst := by
  induction l with
  | nil => simp [lookupA]
  | cons h t ih =>
    obtain ⟨k', v⟩ := h
    by_cases hk : k = k' <;> simp [lookupA, hk, ih]

theorem lookupA_isSome_iff (l : List (K × V)) (k : K) :
    (lookupA l k).isSome = true ↔ k ∈ l.map Prod.fst := by
  rw [Option.isSome_iff_ne_none, ne_eq, lookupA_none_iff, not_not]

theorem lookupA_mem {l : List (K × V)} {k : K} {v : V}
    (h : lookupA l k = some v) : (k, v) ∈ l := by
  induction l with
  | nil => simp [lookupA] at h
  | cons hd t ih =>
    obtain ⟨k', v'⟩ := hd
    by_cases hk : k = k'
    · simp [lookupA, hk] at h
      simp [hk, h]
    · simp [lookupA, hk] at h
      exact List.mem_cons_of_mem _ (ih h)

theorem mem_lookupA {l : List (K × V)} {k : K} {v : V}
    (hnd : (l.map Prod.fst).Nodup) (h : (k, v) ∈ l) : lookupA l k = some v := by
  induction l with
  | nil => simp at h
  | cons hd t ih =>
    obtain ⟨k', v'⟩ := hd
    simp only [List.map_cons, List.nodup_cons] at hnd
    rcases List.mem_cons.mp h with h1 | h1
    · obtain ⟨hk, hv⟩ := Prod.mk.injEq .. ▸ h1
      simp [lookupA, hk, hv]
    · have hkne : k ≠ k' := by
        rintro rfl
        exact hnd.1 (List.mem_map.mpr ⟨(k, v), h1, rfl⟩)
      simp [lookupA, hkne, ih hnd.2 h1]

theorem lookupA_insertA_self (l : List (K × V)) (k : K) (v : V) :
    lookupA (insertA l k v) k = some v := by
  induction l with
  | nil => simp [insertA, lookupA]
  | cons hd t ih =>
    obtain ⟨k', v'⟩ := hd
    by_cases hk : k = k' <;> simp [insertA, lookupA, hk, ih]

theorem lookupA_insertA_ne (l : List (K × V)) {k k' : K} (v : V)
    (h : k' ≠ k) : lookupA (insertA l k v) k' = lookupA l k' := by
  induction l with
  | nil => simp [insertA, lookupA, h]
  | cons hd t ih =>
    obtain ⟨k0, v0⟩ := hd
    by_cases hk : k = k0
    · subst hk
      simp [insertA, lookupA, h]
    · by_cases hk' : k' = k0 <;> simp [insertA, lookupA, hk, hk', ih]

theorem map_fst_insertA_absent {l : List (K × V)} {k : K} (v : V)
    (h : lookupA l k = none) :
    (insertA l k v).map Prod.fst = l.map Prod.fst ++ [k] := by
  induction l with
  | nil => simp [insertA]
  | cons hd t ih =>
    obtain ⟨k0, v0⟩ := hd
    by_cases hk : k = k0
    · simp [lookupA, hk] at h
    · simp only [lookupA, if_neg hk] at h
      simp [insertA, hk, ih h]

theorem map_fst_insertA_present {l : List (K × V)} {k : K} (v : V)
    (h : (lookupA l k).isSome = true) :
    (insertA l k v).map Prod.fst = l.map Prod.fst := by
  induction l with
  | nil => simp [lookupA] at h
  | cons hd t ih =>
    obtain ⟨k0, v0⟩ := hd
    by_cases hk : k = k0
    · simp [insertA, lookupA, hk]
    · simp only [lookupA, if_neg hk] at h
      simp [insertA, hk, ih h]

theorem length_insertA_absent {l : List (K × V)} {k : K} (v : V)
    (h : lookupA l k = none) : (insertA l k v).length = l.length + 1 := by
  have := congrArg List.length (map_fst_insertA_absent v h)
  simpa using this

theorem length_insertA_present {l : List (K × V)} {k : K} (v : V)
    (h : (lookupA l k).isSome = true) : (insertA l k v).length = l.length := by
  have := congrArg List.length (map_fst_insertA_present v h)
  simpa using this

theorem map_fst_eraseA_sublist (l : List (K × V)) (k : K) :
    ((eraseA l k).map Prod.fst).Sublist (l.map Prod.fst) := by
  induction l with
  | nil => simp [eraseA]
  | cons hd t ih =>
    obtain ⟨k0, v0⟩ := hd
    by_cases hk : k = k0
    · simp [eraseA, hk, List.sublist_cons_of_sublist _ (List.Sublist.refl _)]
    · simpa [eraseA, hk] using List.Sublist.cons₂ k0 ih

theorem lookupA_eraseA_ne (l : List (K × V)) {k k' : K} (h : k' ≠ k) :
    lookupA (eraseA l k) k' = lookupA l k' := by
  induction l with
  | nil => simp [eraseA]
  | cons hd t ih =>
    obtain ⟨k0, v0⟩ := hd
    by_cases hk : k = k0
    · subst hk
      simp [eraseA, lookupA, h]
    · by_cases hk' : k' = k0 <;> simp [eraseA, lookupA, hk, hk', ih]

theorem lookupA_eraseA_self {l : List (K × V)} {k : K}
    (hnd : (l.map Prod.fst).Nodup) : lookupA (eraseA l k) k = none := by
  induction l with
  | nil => simp [eraseA, lookupA]
  | cons hd t ih =>
    obtain ⟨k0, v0⟩ := hd
    simp only [List.map_cons, List.nodup_cons] at hnd
    by_cases hk : k = k0
    · subst hk
      simp only [eraseA, if_pos rfl]
      rw [lookupA_none_iff]
      exact hnd.1
    · simp [eraseA, lookupA, hk, ih hnd.2]

theorem length_eraseA_present {l : List (K × V)} {k : K}
    (h : (lookupA l k).isSome = true) :
    (eraseA l k).length + 1 = l.length := by
  induction l with
  | nil => simp [lookupA] at h
  | cons hd t ih =>
    obtain ⟨k0, v0⟩ := hd
    by_cases hk : k = k0
    · simp [eraseA, hk]
    · simp only [lookupA, if_neg hk] at h
      simp [eraseA, hk, ih h]

theorem eraseA_absent {l : List (K × V)} {k : K}
    (h : lookupA l k = none) : eraseA l k = l := by
  induction l with
  | nil => simp [eraseA]
  | cons hd t ih =>
    obtain ⟨k0, v0⟩ := hd
    by_cases hk : k = k0
    · simp [lookupA, hk] at h
    · simp only [lookupA, if_neg hk] at h
      simp [eraseA, hk, ih h]

theorem nodup_eraseA {l : List (K × V)} (k : K)
    (hnd : (l.map Prod.fst).Nodup) : ((eraseA l k).map Prod.fst).Nodup :=
  (map_fst_eraseA_sublist l k).nodup hnd

theorem mem_keys_eraseA {l : List (K × V)} {k k' : K}
    (h : k' ∈ (eraseA l k).map Prod.fst) : k' ∈ l.map Prod.fst :=
  (map_fst_eraseA_sublist l k).mem h

theorem mem_keys_eraseA_of_ne {l : List (K × V)} {k k' : K} (hne : k' ≠ k)
    (h : k' ∈ l.map Prod.fst) : k' ∈ (eraseA l k).map Prod.fst := by
  by_contra hc
  rw [← lookupA_none_iff (eraseA l k), lookupA_eraseA_ne l hne,
    lookupA_none_iff] at hc
  exact hc h

theorem lookupA_append (l1 l2 : List (K × V)) (k : K) :
    lookupA (l1 ++ l2) k = (lookupA l1 k).orElse (fun _ => lookupA l2 k) := by
  induction l1 with
  | nil => simp [lookupA]
  | cons hd t ih =>
    obtain ⟨k0, v0⟩ := hd
    by_cases hk : k = k0 <;> simp [lookupA, hk, ih]

end AssocLemmas

/-! ### `List.getD` / `List.set` lemmas -/

section GetDLemmas

variable {α : Type}

theorem getD_set_self (l : List α) (i : Nat) (a d : α) (h : i < l.length) :
    (l.set i a).getD i d = a := by
  induction l generalizing i with
  | nil => simp at h
  | cons hd t ih =>
    cases i with
    | zero => simp [List.set, List.getD]
    | succ n =>
      simp only [List.length_cons, Nat.succ_lt_succ_iff] at h
      simpa [List.set, List.getD] using ih n h

theorem getD_set_ne (l : List α) {i j : Nat} (a d : α) (h : i ≠ j) :
    (l.set i a).getD j d = l.getD j d := by
  induction l generalizing i j with
  | nil => simp [List.set]
  | cons hd t ih =>
    cases i with
    | zero =>
      cases j with
      | zero => exact absurd rfl h
      | succ m => simp [List.set, List.getD]
    | succ n =>
      cases j with
      | zero => simp [List.set, List.getD]
      | succ m =>
        have : n ≠ m := by omega
        simpa [List.set, List.getD] using ih this

end GetDLemmas

/-! ### Eviction-loop lemmas -/

section EvictLemmas

variable {K V : Type} [DecidableEq K] [Inhabited K]

/-- Valid ring slots hold pairwise-distinct keys. -/
def slotNodup (s : Shard K V) : Prop :=
  ∀ i j, i < s.order.length → j < s.order.length → i ≠ j →
    (s.order.getD i emptySlot).valid = true →
    (s.order.getD j emptySlot).valid = true →
    (s.order.getD i emptySlot).key ≠ (s.order.getD j emptySlot).key

/-- Every valid ring slot's key is resident in the shard's map. -/
def slotMem (s : Shard K V) : Prop :=
  ∀ j, j < s.order.length → (s.order.getD j emptySlot).valid = true →
    (s.order.getD j emptySlot).key ∈ s.entries.map Prod.fst

theorem getD_of_length_le {α : Type} {l : List α} {i : Nat} (d : α)
    (h : l.length ≤ i) : l.getD i d = d := by
  induction l generalizing i with
  | nil => simp [List.getD]
  | cons hd t ih =>
    cases i with
    | zero => simp at h
    | succ n =>
      simp only [List.length_cons, Nat.succ_le_succ_iff] at h
      simpa [List.getD] using ih h

theorem evictStep_length (p : Shard K V × Int) :
    (evictStep p).1.order.length = p.1.order.length := by
  simp only [evictStep]
  split
  · split <;> simp
  · simp

theorem evictStep_writeIdx (p : Shard K V × Int) :
    (evictStep p).1.writeIdx = (p.1.writeIdx + 1) % p.1.order.length := by
  simp only [evictStep]
  split
  · split <;> simp
  · simp

theorem evictStep_maxEntries_frame (p : Shard K V × Int) :
    (evictStep p).1.getCalls = p.1.getCalls ∧
    (evictStep p).1.setCalls = p.1.setCalls ∧
    (evictStep p).1.misses = p.1.misses ∧
    (evictStep p).1.deletes = p.1.deletes := by
  simp only [evictStep]
  split
  · split <;> simp
  · simp

theorem evictStep_count_le (p : Shard K V × Int) : (evictStep p).2 ≤ p.2 := by
  simp only [evictStep]
  split
  · split
    · exact sub_le_self _ (by norm_num)
    · exact le_refl _
  · exact le_refl _

theorem evictStep_entries_cases (p : Shard K V × Int) :
    (evictStep p).1.entries = p.1.entries ∨
    ∃ k0, (lookupA p.1.entries k0).isSome = true ∧
      (evictStep p).1.entries = eraseA p.1.entries k0 := by
  simp only [evictStep]
  split
  · split
    · next hlk => exact Or.inr ⟨_, hlk, rfl⟩
    · exact Or.inl rfl
  · exact Or.inl rfl

theorem evictStep_count_size (p : Shard K V × Int) :
    (evictStep p).2 - ((evictStep p).1.entries.length : Int) =
      p.2 - (p.1.entries.length : Int) := by
  simp only [evictStep]
  split
  · split
    · next hlk =>
      have hl := length_eraseA_present hlk
      show p.2 - 1 -
          ((eraseA p.1.entries
            (p.1.order.getD p.1.writeIdx emptySlot).key).length : Int) =
        p.2 - (p.1.entries.length : Int)
      omega
    · rfl
  · rfl

theorem evictStep_slots (p : Shard K V × Int) (j : Nat) :
    (evictStep p).1.order.getD j emptySlot = p.1.order.getD j emptySlot ∨
    (evictStep p).1.order.getD j emptySlot =
      ⟨(p.1.order.getD j emptySlot).key, false⟩ := by
  by_cases hw : j = p.1.writeIdx
  · by_cases hv : (p.1.order.getD p.1.writeIdx emptySlot).valid = true
    · have hlt : p.1.writeIdx < p.1.order.length := by
        by_contra hge
        push_neg at hge
        rw [getD_of_length_le _ hge] at hv
        simp [emptySlot] at hv
      right
      rw [hw]
      simp only [evictStep]
      rw [if_pos hv]
      split
      · exact getD_set_self _ _ _ _ hlt
      · exact getD_set_self _ _ _ _ hlt
    · left
      rw [hw]
      simp only [evictStep]
      rw [if_neg hv]
  · left
    simp only [evictStep]
    split
    · split <;> exact getD_set_ne _ _ _ (fun h => hw h.symm)
    · rfl

theorem evictStep_cases (p : Shard K V × Int) :
    (evictStep p = ({p.1 with
          writeIdx := (p.1.writeIdx + 1) % p.1.order.length}, p.2) ∧
      (p.1.order.getD p.1.writeIdx emptySlot).valid = false)
  ∨ ((p.1.order.getD p.1.writeIdx emptySlot).valid = true ∧
      (lookupA p.1.entries
        (p.1.order.getD p.1.writeIdx emptySlot).key).isSome = true ∧
      evictStep p = ({p.1 with
          entries := eraseA p.1.entries
            (p.1.order.getD p.1.writeIdx emptySlot).key
          order := p.1.order.set p.1.writeIdx
            ⟨(p.1.order.getD p.1.writeIdx emptySlot).key, false⟩
          evictions := p.1.evictions + 1
          writeIdx := (p.1.writeIdx + 1) % p.1.order.length}, p.2 - 1))
  ∨ ((p.1.order.getD p.1.writeIdx emptySlot).valid = true ∧
      lookupA p.1.entries (p.1.order.getD p.1.writeIdx emptySlot).key = none ∧
      evictStep p = ({p.1 with
          order := p.1.order.set p.1.writeIdx
            ⟨(p.1.order.getD p.1.writeIdx emptySlot).key, false⟩
          writeIdx := (p.1.writeIdx + 1) % p.1.order.length}, p.2)) := by
  simp only [evictStep]
  by_cases hv : (p.1.order.getD p.1.writeIdx emptySlot).valid = true
  · rw [if_pos hv]
    by_cases hlk :
        (lookupA p.1.entries
          (p.1.order.getD p.1.writeIdx emptySlot).key).isSome = true
    · rw [if_pos hlk]
      exact Or.inr (Or.inl ⟨hv, hlk, rfl⟩)
    · rw [if_neg hlk]
      refine Or.inr (Or.inr ⟨hv, ?_, rfl⟩)
      cases hcase : lookupA p.1.entries (p.1.order.getD p.1.writeIdx emptySlot).key
      · rfl
      · rw [hcase] at hlk
        simp at hlk
  · rw [if_neg hv]
    exact Or.inl ⟨rfl, Bool.not_eq_true _ ▸ hv⟩

theorem valid_lt_length {l : List (keySlot K)} {i : Nat}
    (hv : (l.getD i emptySlot).valid = true) : i < l.length := by
  by_contra hge
  push_neg at hge
  rw [getD_of_length_le _ hge] at hv
  simp [emptySlot] at hv

theorem evictStep_slotNodup (p : Shard K V × Int) (hA : slotNodup p.1) :
    slotNodup (evictStep p).1 := by
  intro i j hi hj hij hvi hvj
  rw [evictStep_length] at hi hj
  rcases evictStep_slots p i with hsi | hsi
  · rcases evictStep_slots p j with hsj | hsj
    · rw [hsi] at hvi ⊢
      rw [hsj] at hvj ⊢
      exact hA i j hi hj hij hvi hvj
    · rw [hsj] at hvj
      simp at hvj
  · rw [hsi] at hvi
    simp at hvi

theorem evictStep_slotMem (p : Shard K V × Int) (hA : slotNodup p.1)
    (hB : slotMem p.1) : slotMem (evictStep p).1 := by
  intro j hj hvj
  rw [evictStep_length] at hj
  rcases evictStep_slots p j with hsj | hsj
  · rw [hsj] at hvj ⊢
    have hmem := hB j hj hvj
    rcases evictStep_cases p with ⟨heq, _⟩ | ⟨hv, hlk, heq⟩ | ⟨hv, hlk, heq⟩
    · rw [heq]
      exact hmem
    · have hw2 : p.1.writeIdx < p.1.order.length := valid_lt_length hv
      have hjw : j ≠ p.1.writeIdx := by
        intro hEq
        have hset : (evictStep p).1.order.getD p.1.writeIdx emptySlot =
            ⟨(p.1.order.getD p.1.writeIdx emptySlot).key, false⟩ := by
          have hord : (evictStep p).1.order = p.1.order.set p.1.writeIdx
              ⟨(p.1.order.getD p.1.writeIdx emptySlot).key, false⟩ := by
            rw [heq]
          rw [hord]
          exact getD_set_self _ _ _ _ hw2
        rw [hEq] at hsj hvj
        rw [hsj] at hset
        have hval := congrArg keySlot.valid hset
        rw [hvj] at hval
        simp at hval
      have hkne := hA j p.1.writeIdx hj hw2 hjw hvj hv
      rw [heq]
      exact mem_keys_eraseA_of_ne hkne hmem
    · rw [heq]
      exact hmem
  · rw [hsj] at hvj
    simp at hvj

theorem evictLoop_gate_false {m : Nat} {p : Shard K V × Int}
    (h : ¬((m : Int) ≤ p.2 ∧ 0 < p.1.entries.length)) (fuel : Nat) :
    evictLoop m fuel p = p := by
  cases fuel <;> simp [evictLoop, h]

theorem evictLoop_count_le (m : Nat) (fuel : Nat) :
    ∀ p : Shard K V × Int, (evictLoop m fuel p).2 ≤ p.2 := by
  induction fuel with
  | zero => exact fun p => le_refl _
  | succ n ih =>
    intro p
    show (if (m : Int) ≤ p.2 ∧ 0 < p.1.entries.length then
        evictLoop m n (evictStep p) else p).2 ≤ p.2
    split
    · exact le_trans (ih (evictStep p)) (evictStep_count_le p)
    · exact le_refl _

theorem evictLoop_length (m : Nat) (fuel : Nat) :
    ∀ p : Shard K V × Int,
      (evictLoop m fuel p).1.order.length = p.1.order.length := by
  induction fuel with
  | zero => exact fun p => rfl
  | succ n ih =>
    intro p
    show (if (m : Int) ≤ p.2 ∧ 0 < p.1.entries.length then
        evictLoop m n (evictStep p) else p).1.order.length = _
    split
    · rw [ih (evictStep p), evictStep_length]
    · rfl

theorem evictLoop_frame (m : Nat) (fuel : Nat) :
    ∀ p : Shard K V × Int,
      (evictLoop m fuel p).1.getCalls = p.1.getCalls ∧
      (evictLoop m fuel p).1.setCalls = p.1.setCalls ∧
      (evictLoop m fuel p).1.misses = p.1.misses ∧
      (evictLoop m fuel p).1.deletes = p.1.deletes := by
  induction fuel with
  | zero => exact fun p => ⟨rfl, rfl, rfl, rfl⟩
  | succ n ih =>
    intro p
    rw [show (evictLoop m (n + 1) p) = (if (m : Int) ≤ p.2 ∧
        0 < p.1.entries.length then evictLoop m n (evictStep p) else p)
        from rfl]
    split
    · obtain ⟨h1, h2, h3, h4⟩ := ih (evictStep p)
      obtain ⟨g1, g2, g3, g4⟩ := evictStep_maxEntries_frame p
      exact ⟨h1.trans g1, h2.trans g2, h3.trans g3, h4.trans g4⟩
    · exact ⟨rfl, rfl, rfl, rfl⟩

theorem evictLoop_writeIdx_lt (m : Nat) (fuel : Nat) :
    ∀ p : Shard K V × Int, 0 < p.1.order.length →
      p.1.writeIdx < p.1.order.length →
      (evictLoop m fuel p).1.writeIdx < (evictLoop m fuel p).1.order.length := by
  induction fuel with
  | zero => exact fun p _ hw => hw
  | succ n ih =>
    intro p h0 hw
    show (if (m : Int) ≤ p.2 ∧ 0 < p.1.entries.length then
        evictLoop m n (evictStep p) else p).1.writeIdx < _
    rw [show (evictLoop m (n + 1) p) = (if (m : Int) ≤ p.2 ∧
        0 < p.1.entries.length then evictLoop m n (evictStep p) else p) from rfl]
    split
    · refine ih (evictStep p) ?_ ?_
      · rw [evictStep_length]
        exact h0
      · rw [evictStep_length, evictStep_writeIdx]
        exact Nat.mod_lt _ h0
    · exact hw

theorem evictLoop_keys_sublist (m : Nat) (fuel : Nat) :
    ∀ p : Shard K V × Int,
      ((evictLoop m fuel p).1.entries.map Prod.fst).Sublist
        (p.1.entries.map Prod.fst) := by
  induction fuel with
  | zero => exact fun p => List.Sublist.refl _
  | succ n ih =>
    intro p
    show ((if (m : Int) ≤ p.2 ∧ 0 < p.1.entries.length then
        evictLoop m n (evictStep p) else p).1.entries.map Prod.fst).Sublist _
    split
    · refine (ih (evictStep p)).trans ?_
      rcases evictStep_entries_cases p with h | ⟨k0, _, h⟩
      · rw [h]
      · rw [h]
        exact map_fst_eraseA_sublist _ _
    · exact List.Sublist.refl _

theorem evictLoop_count_size (m : Nat) (fuel : Nat) :
    ∀ p : Shard K V × Int,
      (evictLoop m fuel p).2 - ((evictLoop m fuel p).1.entries.length : Int) =
        p.2 - (p.1.entries.length : Int) := by
  induction fuel with
  | zero => exact fun p => rfl
  | succ n ih =>
    intro p
    show (if (m : Int) ≤ p.2 ∧ 0 < p.1.entries.length then
        evictLoop m n (evictStep p) else p).2 - _ = _
    rw [show (evictLoop m (n + 1) p) = (if (m : Int) ≤ p.2 ∧
        0 < p.1.entries.length then evictLoop m n (evictStep p) else p) from rfl]
    split
    · rw [ih (evictStep p), evictStep_count_size]
    · rfl

theorem evictLoop_slots (m : Nat) (fuel : Nat) :
    ∀ (p : Shard K V × Int) (j : Nat),
      (evictLoop m fuel p).1.order.getD j emptySlot =
          p.1.order.getD j emptySlot ∨
      (evictLoop m fuel p).1.order.getD j emptySlot =
          ⟨(p.1.order.getD j emptySlot).key, false⟩ := by
  induction fuel with
  | zero => exact fun p j => Or.inl rfl
  | succ n ih =>
    intro p j
    rw [show (evictLoop m (n + 1) p) = (if (m : Int) ≤ p.2 ∧
        0 < p.1.entries.length then evictLoop m n (evictStep p) else p) from rfl]
    split
    · rcases ih (evictStep p) j with h1 | h1 <;>
        rcases evictStep_slots p j with h2 | h2
      · exact Or.inl (h1.trans h2)
      · exact Or.inr (h1.trans h2)
      · rw [h2] at h1
        exact Or.inr h1
      · rw [h2] at h1
        exact Or.inr h1
    · exact Or.inl rfl

theorem evictLoop_slotinv (m : Nat) (fuel : Nat) :
    ∀ p : Shard K V × Int, slotNodup p.1 → slotMem p.1 →
      slotNodup (evictLoop m fuel p).1 ∧ slotMem (evictLoop m fuel p).1 := by
  induction fuel with
  | zero => exact fun p hA hB => ⟨hA, hB⟩
  | succ n ih =>
    intro p hA hB
    rw [show (evictLoop m (n + 1) p) = (if (m : Int) ≤ p.2 ∧
        0 < p.1.entries.length then evictLoop m n (evictStep p) else p) from rfl]
    split
    · exact ih (evictStep p) (evictStep_slotNodup p hA)
        (evictStep_slotMem p hA hB)
    · exact ⟨hA, hB⟩

theorem addmod_ne {w j L : Nat} (hw : w < L) (hj0 : 0 < j) (hjL : j < L) :
    (w + j) % L ≠ w := by
  rcases Nat.lt_or_ge (w + j) L with h | h
  · rw [Nat.mod_eq_of_lt h]
    omega
  · have h2 : w + j - L < L := by omega
    rw [Nat.mod_eq_sub_mod h, Nat.mod_eq_of_lt h2]
    omega

theorem evictLoop_progress (m : Nat) : ∀ (fuel : Nat) (p : Shard K V × Int),
    p.1.writeIdx < p.1.order.length →
    fuel ≤ p.1.order.length →
    (∃ j, j < fuel ∧
      ((p.1.order.getD ((p.1.writeIdx + j) % p.1.order.length)
          emptySlot).valid = true) ∧
      ((lookupA p.1.entries
        ((p.1.order.getD ((p.1.writeIdx + j) % p.1.order.length)
          emptySlot).key)).isSome = true)) →
    (evictLoop m fuel p).2 ≤ p.2 - 1 ∨ (evictLoop m fuel p).2 < (m : Int) := by
  intro fuel
  induction fuel with
  | zero =>
    intro p _ _ hwit
    obtain ⟨j, hj, _⟩ := hwit
    omega
  | succ n ih =>
    intro p hw hfuel hwit
    obtain ⟨j, hj, hvj, hlj⟩ := hwit
    have hL0 : 0 < p.1.order.length := by omega
    have harith : 0 < j → (((p.1.writeIdx + 1) % p.1.order.length + (j - 1)) %
        p.1.order.length) = (p.1.writeIdx + j) % p.1.order.length := by
      intro hj0
      rw [Nat.mod_add_mod]
      congr 1
      omega
    by_cases hgate : (m : Int) ≤ p.2 ∧ 0 < p.1.entries.length
    · rw [show (evictLoop m (n + 1) p) = (if (m : Int) ≤ p.2 ∧
          0 < p.1.entries.length then evictLoop m n (evictStep p) else p)
          from rfl, if_pos hgate]
      rcases evictStep_cases p with ⟨heq, hval⟩ | ⟨hv, hlk, heq⟩ |
          ⟨hv, hlk, heq⟩
      · -- invalid slot at the cursor: nothing changes but the cursor
        have hord : (evictStep p).1.order = p.1.order := by rw [heq]
        have hent : (evictStep p).1.entries = p.1.entries := by rw [heq]
        have hcnt : (evictStep p).2 = p.2 := by rw [heq]
        have hj0 : 0 < j := by
          rcases Nat.eq_zero_or_pos j with rfl | h
          · rw [Nat.add_zero, Nat.mod_eq_of_lt hw] at hvj
            rw [hvj] at hval
            simp at hval
          · exact h
        rcases ih (evictStep p) (by
            rw [evictStep_length, evictStep_writeIdx]
            exact Nat.mod_lt _ hL0)
          (by rw [evictStep_length]; omega)
          ⟨j - 1, by omega, by
            rw [evictStep_writeIdx, evictStep_length, hord, harith hj0]
            exact hvj, by
            rw [evictStep_writeIdx, evictStep_length, hord, hent, harith hj0]
            exact hlj⟩ with h | h
        · rw [hcnt] at h
          exact Or.inl h
        · exact Or.inr h
      · -- eviction: the counter strictly decreased
        left
        have hcnt : (evictStep p).2 = p.2 - 1 := by rw [heq]
        exact le_trans (evictLoop_count_le m n (evictStep p)) (le_of_eq hcnt)
      · -- valid slot whose key is gone: lazily invalidated, no counter change
        have hord : (evictStep p).1.order = p.1.order.set p.1.writeIdx
            ⟨(p.1.order.getD p.1.writeIdx emptySlot).key, false⟩ := by
          rw [heq]
        have hent : (evictStep p).1.entries = p.1.entries := by rw [heq]
        have hcnt : (evictStep p).2 = p.2 := by rw [heq]
        have hj0 : 0 < j := by
          rcases Nat.eq_zero_or_pos j with rfl | h
          · rw [Nat.add_zero, Nat.mod_eq_of_lt hw] at hvj hlj
            rw [hlk] at hlj
            simp at hlj
          · exact h
        have hpos_ne : (p.1.writeIdx + j) % p.1.order.length ≠ p.1.writeIdx :=
          addmod_ne hw hj0 (by omega)
        rcases ih (evictStep p) (by
            rw [evictStep_length, evictStep_writeIdx]
            exact Nat.mod_lt _ hL0)
          (by rw [evictStep_length]; omega)
          ⟨j - 1, by omega, by
            rw [evictStep_writeIdx, evictStep_length, hord, harith hj0,
              getD_set_ne _ _ _ (fun h => hpos_ne h.symm)]
            exact hvj, by
            rw [evictStep_writeIdx, evictStep_length, hord, hent, harith hj0,
              getD_set_ne _ _ _ (fun h => hpos_ne h.symm)]
            exact hlj⟩ with h | h
        · rw [hcnt] at h
          exact Or.inl h
        · exact Or.inr h
    · rw [evictLoop_gate_false hgate]
      right
      push_neg at hgate
      by_cases hm : (m : Int) ≤ p.2
      · have hlen := hgate hm
        have : p.1.entries = [] := by
          cases hent : p.1.entries
          · rfl
          · rw [hent] at hlen
            simp at hlen
        rw [this] at hlj
        cases hlj
      · omega

end EvictLemmas

/-! ### Shard-operation characterizations -/

section ShardLemmas

variable {K V : Type} [DecidableEq K] [Inhabited K]

theorem shardSet_present {m : Nat} {s : Shard K V} {cnt : Int} {k : K} {v : V}
    (h : (lookupA s.entries k).isSome = true) :
    Shard.set m s cnt k v =
      ({ s with setCalls := s.setCalls + 1, entries := insertA s.entries k v },
        cnt) := by
  simp only [Shard.set]
  rw [if_pos h]

theorem shardSet_absent {m : Nat} {s : Shard K V} {cnt : Int} {k : K} {v : V}
    (h : lookupA s.entries k = none) :
    Shard.set m s cnt k v =
      insertFresh k v (evictLoop m s.order.length
        ({ s with setCalls := s.setCalls + 1 }, cnt)) := by
  simp only [Shard.set]
  rw [if_neg (by rw [h]; simp)]

theorem shardGetOrSet_present {m : Nat} {s : Shard K V} {cnt : Int} {k : K}
    {v v0 : V} (h : lookupA s.entries k = some v0) :
    Shard.getOrSet m s cnt k v =
      ((v0, true), { s with getCalls := s.getCalls + 1 }, cnt) := by
  simp only [Shard.getOrSet]
  rw [h]

theorem shardGetOrSet_absent {m : Nat} {s : Shard K V} {cnt : Int} {k : K}
    {v : V} (h : lookupA s.entries k = none) :
    Shard.getOrSet m s cnt k v =
      ((v, false), insertFresh k v (evictLoop m s.order.length
        ({ s with setCalls := s.setCalls + 1 }, cnt))) := by
  simp only [Shard.getOrSet]
  rw [h]

theorem shardSetIfAbsent_present {m : Nat} {s : Shard K V} {cnt : Int} {k : K}
    {v : V} (h : (lookupA s.entries k).isSome = true) :
    Shard.setIfAbsent m s cnt k v = (false, s, cnt) := by
  simp only [Shard.setIfAbsent]
  rw [if_pos h]

theorem shardSetIfAbsent_absent {m : Nat} {s : Shard K V} {cnt : Int} {k : K}
    {v : V} (h : lookupA s.entries k = none) :
    Shard.setIfAbsent m s cnt k v =
      (true, insertFresh k v (evictLoop m s.order.length
        ({ s with setCalls := s.setCalls + 1 }, cnt))) := by
  simp only [Shard.setIfAbsent]
  rw [if_neg (by rw [h]; simp)]

/-- Facts about the shared miss path (eviction loop followed by the
insertion epilogue) of `set`/`getOrSet`/`setIfAbsent`. -/
theorem insert_after_loop_facts (m : Nat) (s1 : Shard K V) (cnt : Int)
    (k : K) (v : V)
    (habs : lookupA s1.entries k = none)
    (hwix : s1.writeIdx < s1.order.length)
    (hnd : (s1.entries.map Prod.fst).Nodup) :
    (insertFresh k v (evictLoop m s1.order.length (s1, cnt))).1.order.length =
        s1.order.length ∧
    (insertFresh k v (evictLoop m s1.order.length (s1, cnt))).1.writeIdx <
        (insertFresh k v (evictLoop m s1.order.length (s1, cnt))).1.order.length ∧
    ((insertFresh k v (evictLoop m s1.order.length (s1, cnt))).1.entries.map
        Prod.fst).Nodup ∧
    (∀ k0, k0 ∈ (insertFresh k v (evictLoop m s1.order.length
        (s1, cnt))).1.entries.map Prod.fst →
        k0 = k ∨ k0 ∈ s1.entries.map Prod.fst) ∧
    (insertFresh k v (evictLoop m s1.order.length (s1, cnt))).2 =
      cnt + ((insertFresh k v (evictLoop m s1.order.length
        (s1, cnt))).1.entries.length : Int) - (s1.entries.length : Int) ∧
    lookupA (insertFresh k v (evictLoop m s1.order.length
        (s1, cnt))).1.entries k = some v := by
  have hL : 0 < s1.order.length := by omega
  set q := evictLoop m s1.order.length (s1, cnt) with hq
  have hqlen : q.1.order.length = s1.order.length :=
    evictLoop_length m s1.order.length (s1, cnt)
  have hqwix : q.1.writeIdx < q.1.order.length :=
    evictLoop_writeIdx_lt m s1.order.length (s1, cnt) hL hwix
  have hqsub : (q.1.entries.map Prod.fst).Sublist (s1.entries.map Prod.fst) :=
    evictLoop_keys_sublist m s1.order.length (s1, cnt)
  have hqnd : (q.1.entries.map Prod.fst).Nodup := hqsub.nodup hnd
  have hqabs : lookupA q.1.entries k = none := by
    rw [lookupA_none_iff]
    intro hmem
    rw [lookupA_none_iff] at habs
    exact habs (hqsub.mem hmem)
  have hqcnt : q.2 - (q.1.entries.length : Int) =
      cnt - (s1.entries.length : Int) :=
    evictLoop_count_size m s1.order.length (s1, cnt)
  have hkeys : (insertFresh k v q).1.entries.map Prod.fst =
      q.1.entries.map Prod.fst ++ [k] := by
    simp only [insertFresh]
    exact map_fst_insertA_absent v hqabs
  refine ⟨?_, ?_, ?_, ?_, ?_, ?_⟩
  · simp only [insertFresh]
    rw [List.length_set, hqlen]
  · simp only [insertFresh]
    rw [List.length_set]
    exact Nat.mod_lt _ (by omega)
  · rw [hkeys]
    refine List.Nodup.append hqnd (List.nodup_singleton k) ?_
    intro a ha hb
    rw [List.mem_singleton] at hb
    subst hb
    rw [lookupA_none_iff] at hqabs
    exact hqabs ha
  · intro k0 hk0
    rw [hkeys, List.mem_append, List.mem_singleton] at hk0
    rcases hk0 with h | h
    · exact Or.inr (hqsub.mem h)
    · exact Or.inl h
  · have hlen := congrArg List.length hkeys
    rw [List.length_append, List.length_map, List.length_map,
      List.length_singleton] at hlen
    have hc : (insertFresh k v q).2 = q.2 + 1 := rfl
    rw [hc]
    omega
  · simp only [insertFresh]
    exact lookupA_insertA_self _ _ _

end ShardLemmas

/-! ### Cache-wide invariant and reachability -/

section Invariant

variable {K V : Type} [DecidableEq K] [Inhabited K]

/-- Structural invariant of every reachable cache state. -/
structure WF (hash : K → Nat) (c : Cache K V) : Prop where
  pos : 0 < c.maxEntries
  ringLen : ∀ i, (c.shards i).order.length = entriesPerShard c.maxEntries
  wIdxLt : ∀ i, (c.shards i).writeIdx < (c.shards i).order.length
  nodupKeys : ∀ i, ((c.shards i).entries.map Prod.fst).Nodup
  routing : ∀ i, ∀ k0 ∈ (c.shards i).entries.map Prod.fst,
    shardIdx hash k0 = i
  countEq : c.entryCount = (Cache.totalSize c : Int)

/-- Cache states reachable by the public API from `New`. -/
inductive Reach (hash : K → Nat) : Cache K V → Prop
  | new (maxEntries : Nat) (h : 0 < maxEntries) :
      Reach hash (New K V maxEntries)
  | set {c : Cache K V} (k : K) (v : V) (h : Reach hash c) :
      Reach hash (Cache.set hash c k v)
  | get {c : Cache K V} (k : K) (h : Reach hash c) :
      Reach hash (Cache.get hash c k).2
  | has {c : Cache K V} (k : K) (h : Reach hash c) :
      Reach hash (Cache.has hash c k).2
  | getOrSet {c : Cache K V} (k : K) (v : V) (h : Reach hash c) :
      Reach hash (Cache.getOrSet hash c k v).2
  | setIfAbsent {c : Cache K V} (k : K) (v : V) (h : Reach hash c) :
      Reach hash (Cache.setIfAbsent hash c k v).2
  | del {c : Cache K V} (k : K) (h : Reach hash c) :
      Reach hash (Cache.delete hash c k)
  | getAndDelete {c : Cache K V} (k : K) (h : Reach hash c) :
      Reach hash (Cache.getAndDelete hash c k).2
  | reset {c : Cache K V} (h : Reach hash c) : Reach hash (Cache.reset c)

theorem entriesPerShard_pos {m : Nat} (h : 0 < m) : 0 < entriesPerShard m := by
  unfold entriesPerShard shardsCount
  omega

theorem totalSize_shards_update {c c' : Cache K V} {i : Fin shardsCount}
    {s' : Shard K V} (h : c'.shards = Function.update c.shards i s') :
    (c'.totalSize : Int) + ((c.shards i).entries.length : Int) =
      (c.totalSize : Int) + (s'.entries.length : Int) := by
  have h1 : c'.totalSize = ∑ x : Fin shardsCount,
      Function.update (fun j => (c.shards j).entries.length) i
        s'.entries.length x := by
    unfold Cache.totalSize
    refine Finset.sum_congr rfl ?_
    intro x _
    rw [h]
    by_cases hx : x = i
    · subst hx
      rw [Function.update_same, Function.update_same]
    · rw [Function.update_noteq hx, Function.update_noteq hx]
  rw [h1, Finset.sum_update_of_mem (Finset.mem_univ i)]
  unfold Cache.totalSize
  rw [Finset.sum_eq_sum_diff_singleton_add (Finset.mem_univ i)
    (fun j => (c.shards j).entries.length)]
  push_cast
  ring

theorem WF_update (hash : K → Nat) {c : Cache K V} (hwf : WF hash c)
    {i : Fin shardsCount} {s' : Shard K V} {n : Int}
    (hlen : s'.order.length = (c.shards i).order.length)
    (hwix : s'.writeIdx < s'.order.length)
    (hnd : (s'.entries.map Prod.fst).Nodup)
    (hroute : ∀ k0 ∈ s'.entries.map Prod.fst, shardIdx hash k0 = i)
    (hcnt : n = c.entryCount + (s'.entries.length : Int) -
      ((c.shards i).entries.length : Int)) :
    WF hash { c with
      shards := Function.update c.shards i s'
      entryCount := n } := by
  have hts := totalSize_shards_update
    (show ({ c with
      shards := Function.update c.shards i s'
      entryCount := n } : Cache K V).shards = Function.update c.shards i s'
      from rfl)
  refine ⟨hwf.pos, ?_, ?_, ?_, ?_, ?_⟩
  · intro j
    by_cases hj : j = i
    · subst hj
      show (Function.update c.shards j s' j).order.length = _
      rw [Function.update_same, hlen]
      exact hwf.ringLen j
    · show (Function.update c.shards i s' j).order.length = _
      rw [Function.update_noteq hj]
      exact hwf.ringLen j
  · intro j
    by_cases hj : j = i
    · subst hj
      show (Function.update c.shards j s' j).writeIdx <
        (Function.update c.shards j s' j).order.length
      rw [Function.update_same]
      exact hwix
    · show (Function.update c.shards i s' j).writeIdx <
        (Function.update c.shards i s' j).order.length
      rw [Function.update_noteq hj]
      exact hwf.wIdxLt j
  · intro j
    by_cases hj : j = i
    · subst hj
      show ((Function.update c.shards j s' j).entries.map Prod.fst).Nodup
      rw [Function.update_same]
      exact hnd
    · show ((Function.update c.shards i s' j).entries.map Prod.fst).Nodup
      rw [Function.update_noteq hj]
      exact hwf.nodupKeys j
  · intro j k0 hk0
    by_cases hj : j = i
    · subst hj
      rw [show (({ c with
          shards := Function.update c.shards j s'
          entryCount := n } : Cache K V).shards j) = s' from
          Function.update_same _ _ _] at hk0
      exact hroute k0 hk0
    · rw [show (({ c with
          shards := Function.update c.shards i s'
          entryCount := n } : Cache K V).shards j) = c.shards j from
          Function.update_noteq hj _ _] at hk0
      exact hwf.routing j k0 hk0
  · show n = _
    have hce := hwf.countEq
    omega

theorem shardGet_snd (s : Shard K V) (k : K) :
    (Shard.get s k).2.entries = s.entries ∧
    (Shard.get s k).2.order = s.order ∧
    (Shard.get s k).2.writeIdx = s.writeIdx := by
  simp only [Shard.get]
  cases lookupA s.entries k <;> exact ⟨rfl, rfl, rfl⟩

theorem shardGet_fst (s : Shard K V) (k : K) :
    (Shard.get s k).1 = lookupA s.entries k := by
  simp only [Shard.get]
  cases lookupA s.entries k <;> rfl

theorem shardDelete_present {s : Shard K V} {cnt : Int} {k : K}
    (h : (lookupA s.entries k).isSome = true) :
    Shard.delete s cnt k =
      ({ s with deletes := s.deletes + 1, entries := eraseA s.entries k },
        cnt - 1) := by
  simp only [Shard.delete]
  rw [if_pos h]

theorem shardDelete_absent {s : Shard K V} {cnt : Int} {k : K}
    (h : lookupA s.entries k = none) :
    Shard.delete s cnt k = ({ s with deletes := s.deletes + 1 }, cnt) := by
  simp only [Shard.delete]
  rw [if_neg (by rw [h]; simp)]

theorem shardGetAndDelete_present {s : Shard K V} {cnt : Int} {k : K} {v0 : V}
    (h : lookupA s.entries k = some v0) :
    Shard.getAndDelete s cnt k =
      (some v0,
        { s with deletes := s.deletes + 1, entries := eraseA s.entries k },
        cnt - 1) := by
  simp only [Shard.getAndDelete]
  rw [h]

theorem shardGetAndDelete_absent {s : Shard K V} {cnt : Int} {k : K}
    (h : lookupA s.entries k = none) :
    Shard.getAndDelete s cnt k =
      (none, { s with deletes := s.deletes + 1 }, cnt) := by
  simp only [Shard.getAndDelete]
  rw [h]

theorem isSome_false_eq_none {α : Type} {o : Option α}
    (h : ¬o.isSome = true) : o = none := by
  cases o
  · rfl
  · simp at h

theorem WF_new (hash : K → Nat) (m : Nat) (h : 0 < m) :
    WF hash (New K V m) := by
  refine ⟨h, fun i => ?_, fun i => ?_, fun i => ?_, fun i k0 h0 => ?_, ?_⟩
  · simp [New, freshShard]
  · simp [New, freshShard]
    exact entriesPerShard_pos h
  · simp [New, freshShard]
  · simp [New, freshShard] at h0
  · show (0 : Int) = _
    unfold Cache.totalSize
    simp [New, freshShard]

theorem WF_set (hash : K → Nat) {c : Cache K V} (hwf : WF hash c)
    (k : K) (v : V) : WF hash (Cache.set hash c k v) := by
  by_cases hpres :
      (lookupA (c.shards (shardIdx hash k)).entries k).isSome = true
  · have heq : Cache.set hash c k v = { c with
        shards := Function.update c.shards (shardIdx hash k)
          ({ c.shards (shardIdx hash k) with
              setCalls := (c.shards (shardIdx hash k)).setCalls + 1
              entries := insertA (c.shards (shardIdx hash k)).entries k v })
        entryCount := c.entryCount } := by
      simp only [Cache.set]
      rw [shardSet_present hpres]
    rw [heq]
    refine WF_update hash hwf rfl (hwf.wIdxLt _) ?_ ?_ ?_
    · rw [map_fst_insertA_present v hpres]
      exact hwf.nodupKeys _
    · intro k0 hk0
      rw [map_fst_insertA_present v hpres] at hk0
      exact hwf.routing _ k0 hk0
    · rw [length_insertA_present v hpres]
      ring
  · have habs : lookupA (c.shards (shardIdx hash k)).entries k = none :=
      isSome_false_eq_none hpres
    have heq : Cache.set hash c k v = { c with
        shards := Function.update c.shards (shardIdx hash k)
          (insertFresh k v (evictLoop c.maxEntries
            (c.shards (shardIdx hash k)).order.length
            ({ c.shards (shardIdx hash k) with
                setCalls := (c.shards (shardIdx hash k)).setCalls + 1 },
              c.entryCount))).1
        entryCount := (insertFresh k v (evictLoop c.maxEntries
            (c.shards (shardIdx hash k)).order.length
            ({ c.shards (shardIdx hash k) with
                setCalls := (c.shards (shardIdx hash k)).setCalls + 1 },
              c.entryCount))).2 } := by
      simp only [Cache.set]
      rw [shardSet_absent habs]
    obtain ⟨f1, f2, f3, f4, f5, f6⟩ := insert_after_loop_facts c.maxEntries
      { c.shards (shardIdx hash k) with
          setCalls := (c.shards (shardIdx hash k)).setCalls + 1 }
      c.entryCount k v habs (hwf.wIdxLt _) (hwf.nodupKeys _)
    rw [heq]
    refine WF_update hash hwf f1 f2 f3 ?_ f5
    intro k0 hk0
    rcases f4 k0 hk0 with h | h
    · subst h
      rfl
    · exact hwf.routing _ k0 h

theorem WF_get (hash : K → Nat) {c : Cache K V} (hwf : WF hash c) (k : K) :
    WF hash (Cache.get hash c k).2 := by
  obtain ⟨h1, h2, h3⟩ := shardGet_snd (c.shards (shardIdx hash k)) k
  refine WF_update hash hwf (by rw [h2]) (by rw [h2, h3]; exact hwf.wIdxLt _)
    (by rw [h1]; exact hwf.nodupKeys _)
    (by rw [h1]; exact hwf.routing _) (by rw [h1]; ring)

theorem WF_has (hash : K → Nat) {c : Cache K V} (hwf : WF hash c) (k : K) :
    WF hash (Cache.has hash c k).2 :=
  WF_get hash hwf k

theorem WF_getOrSet (hash : K → Nat) {c : Cache K V} (hwf : WF hash c)
    (k : K) (v : V) : WF hash (Cache.getOrSet hash c k v).2 := by
  cases hcase : lookupA (c.shards (shardIdx hash k)).entries k with
  | some v0 =>
    have heq : (Cache.getOrSet hash c k v).2 = { c with
        shards := Function.update c.shards (shardIdx hash k)
          ({ c.shards (shardIdx hash k) with
              getCalls := (c.shards (shardIdx hash k)).getCalls + 1 })
        entryCount := c.entryCount } := by
      simp only [Cache.getOrSet]
      rw [shardGetOrSet_present hcase]
    rw [heq]
    exact WF_update hash hwf rfl (hwf.wIdxLt _) (hwf.nodupKeys _)
      (hwf.routing _) (by ring)
  | none =>
    have heq : (Cache.getOrSet hash c k v).2 = { c with
        shards := Function.update c.shards (shardIdx hash k)
          (insertFresh k v (evictLoop c.maxEntries
            (c.shards (shardIdx hash k)).order.length
            ({ c.shards (shardIdx hash k) with
                setCalls := (c.shards (shardIdx hash k)).setCalls + 1 },
              c.entryCount))).1
        entryCount := (insertFresh k v (evictLoop c.maxEntries
            (c.shards (shardIdx hash k)).order.length
            ({ c.shards (shardIdx hash k) with
                setCalls := (c.shards (shardIdx hash k)).setCalls + 1 },
              c.entryCount))).2 } := by
      simp only [Cache.getOrSet]
      rw [shardGetOrSet_absent hcase]
    obtain ⟨f1, f2, f3, f4, f5, f6⟩ := insert_after_loop_facts c.maxEntries
      { c.shards (shardIdx hash k) with
          setCalls := (c.shards (shardIdx hash k)).setCalls + 1 }
      c.entryCount k v hcase (hwf.wIdxLt _) (hwf.nodupKeys _)
    rw [heq]
    refine WF_update hash hwf f1 f2 f3 ?_ f5
    intro k0 hk0
    rcases f4 k0 hk0 with h | h
    · subst h
      rfl
    · exact hwf.routing _ k0 h

theorem WF_setIfAbsent (hash : K → Nat) {c : Cache K V} (hwf : WF hash c)
    (k : K) (v : V) : WF hash (Cache.setIfAbsent hash c k v).2 := by
  by_cases hpres :
      (lookupA (c.shards (shardIdx hash k)).entries k).isSome = true
  · have heq : (Cache.setIfAbsent hash c k v).2 = { c with
        shards := Function.update c.shards (shardIdx hash k)
          (c.shards (shardIdx hash k))
        entryCount := c.entryCount } := by
      simp only [Cache.setIfAbsent]
      rw [shardSetIfAbsent_present hpres]
    rw [heq]
    exact WF_update hash hwf rfl (hwf.wIdxLt _) (hwf.nodupKeys _)
      (hwf.routing _) (by ring)
  · have habs : lookupA (c.shards (shardIdx hash k)).entries k = none :=
      isSome_false_eq_none hpres
    have heq : (Cache.setIfAbsent hash c k v).2 = { c with
        shards := Function.update c.shards (shardIdx hash k)
          (insertFresh k v (evictLoop c.maxEntries
            (c.shards (shardIdx hash k)).order.length
            ({ c.shards (shardIdx hash k) with
                setCalls := (c.shards (shardIdx hash k)).setCalls + 1 },
              c.entryCount))).1
        entryCount := (insertFresh k v (evictLoop c.maxEntries
            (c.shards (shardIdx hash k)).order.length
            ({ c.shards (shardIdx hash k) with
                setCalls := (c.shards (shardIdx hash k)).setCalls + 1 },
              c.entryCount))).2 } := by
      simp only [Cache.setIfAbsent]
      rw [shardSetIfAbsent_absent habs]
    obtain ⟨f1, f2, f3, f4, f5, f6⟩ := insert_after_loop_facts c.maxEntries
      { c.shards (shardIdx hash k) with
          setCalls := (c.shards (shardIdx hash k)).setCalls + 1 }
      c.entryCount k v habs (hwf.wIdxLt _) (hwf.nodupKeys _)
    rw [heq]
    refine WF_update hash hwf f1 f2 f3 ?_ f5
    intro k0 hk0
    rcases f4 k0 hk0 with h | h
    · subst h
      rfl
    · exact hwf.routing _ k0 h

theorem WF_delete (hash : K → Nat) {c : Cache K V} (hwf : WF hash c)
    (k : K) : WF hash (Cache.delete hash c k) := by
  by_cases hpres :
      (lookupA (c.shards (shardIdx hash k)).entries k).isSome = true
  · have heq : Cache.delete hash c k = { c with
        shards := Function.update c.shards (shardIdx hash k)
          ({ c.shards (shardIdx hash k) with
              deletes := (c.shards (shardIdx hash k)).deletes + 1
              entries := eraseA (c.shards (shardIdx hash k)).entries k })
        entryCount := c.entryCount - 1 } := by
      simp only [Cache.delete]
      rw [shardDelete_present hpres]
    rw [heq]
    refine WF_update hash hwf rfl (hwf.wIdxLt _)
      (nodup_eraseA k (hwf.nodupKeys _)) ?_ ?_
    · intro k0 hk0
      exact hwf.routing _ k0 (mem_keys_eraseA hk0)
    · have hlen := length_eraseA_present hpres
      show c.entryCount - 1 = c.entryCount +
        ((eraseA (c.shards (shardIdx hash k)).entries k).length : Int) -
        ((c.shards (shardIdx hash k)).entries.length : Int)
      omega
  · have habs : lookupA (c.shards (shardIdx hash k)).entries k = none :=
      isSome_false_eq_none hpres
    have heq : Cache.delete hash c k = { c with
        shards := Function.update c.shards (shardIdx hash k)
          ({ c.shards (shardIdx hash k) with
              deletes := (c.shards (shardIdx hash k)).deletes + 1 })
        entryCount := c.entryCount } := by
      simp only [Cache.delete]
      rw [shardDelete_absent habs]
    rw [heq]
    exact WF_update hash hwf rfl (hwf.wIdxLt _) (hwf.nodupKeys _)
      (hwf.routing _) (by ring)

theorem WF_getAndDelete (hash : K → Nat) {c : Cache K V} (hwf : WF hash c)
    (k : K) : WF hash (Cache.getAndDelete hash c k).2 := by
  cases hcase : lookupA (c.shards (shardIdx hash k)).entries k with
  | some v0 =>
    have heq : (Cache.getAndDelete hash c k).2 = { c with
        shards := Function.update c.shards (shardIdx hash k)
          ({ c.shards (shardIdx hash k) with
              deletes := (c.shards (shardIdx hash k)).deletes + 1
              entries := eraseA (c.shards (shardIdx hash k)).entries k })
        entryCount := c.entryCount - 1 } := by
      simp only [Cache.getAndDelete]
      rw [shardGetAndDelete_present hcase]
    rw [heq]
    refine WF_update hash hwf rfl (hwf.wIdxLt _)
      (nodup_eraseA k (hwf.nodupKeys _)) ?_ ?_
    · intro k0 hk0
      exact hwf.routing _ k0 (mem_keys_eraseA hk0)
    · have hlen := length_eraseA_present
        (show (lookupA (c.shards (shardIdx hash k)).entries k).isSome = true
          by rw [hcase]; rfl)
      show c.entryCount - 1 = c.entryCount +
        ((eraseA (c.shards (shardIdx hash k)).entries k).length : Int) -
        ((c.shards (shardIdx hash k)).entries.length : Int)
      omega
  | none =>
    have heq : (Cache.getAndDelete hash c k).2 = { c with
        shards := Function.update c.shards (shardIdx hash k)
          ({ c.shards (shardIdx hash k) with
              deletes := (c.shards (shardIdx hash k)).deletes + 1 })
        entryCount := c.entryCount } := by
      simp only [Cache.getAndDelete]
      rw [shardGetAndDelete_absent hcase]
    rw [heq]
    exact WF_update hash hwf rfl (hwf.wIdxLt _) (hwf.nodupKeys _)
      (hwf.routing _) (by ring)

theorem WF_reset (hash : K → Nat) {c : Cache K V} (hwf : WF hash c) :
    WF hash (Cache.reset c) := by
  refine ⟨hwf.pos, fun i => ?_, fun i => ?_, fun i => ?_,
    fun i k0 h0 => ?_, ?_⟩
  · show ((Shard.reset (c.shards i)).order).length = _
    simp only [Shard.reset, List.length_map]
    exact hwf.ringLen i
  · show (Shard.reset (c.shards i)).writeIdx <
      (Shard.reset (c.shards i)).order.length
    simp only [Shard.reset, List.length_map]
    rw [hwf.ringLen i]
    exact entriesPerShard_pos hwf.pos
  · show (((Shard.reset (c.shards i)).entries).map Prod.fst).Nodup
    simp [Shard.reset]
  · simp [Cache.reset, Shard.reset] at h0
  · show (0 : Int) = _
    unfold Cache.totalSize
    simp [Cache.reset, Shard.reset]

/-- Every reachable cache state satisfies the structural invariant. -/
theorem Reach_WF (hash : K → Nat) {c : Cache K V} (h : Reach hash c) :
    WF hash c := by
  induction h with
  | new m hm => exact WF_new hash m hm
  | set k v _ ih => exact WF_set hash ih k v
  | get k _ ih => exact WF_get hash ih k
  | has k _ ih => exact WF_has hash ih k
  | getOrSet k v _ ih => exact WF_getOrSet hash ih k v
  | setIfAbsent k v _ ih => exact WF_setIfAbsent hash ih k v
  | del k _ ih => exact WF_delete hash ih k
  | getAndDelete k _ ih => exact WF_getAndDelete hash ih k
  | reset _ ih => exact WF_reset hash ih

end Invariant

/-! ### Cache-level observation lemmas -/

section CacheLemmas

variable {K V : Type} [DecidableEq K] [Inhabited K]

theorem cacheGet_fst (hash : K → Nat) (c : Cache K V) (k : K) :
    (Cache.get hash c k).1 = Cache.peek hash c k := by
  simp only [Cache.get, Cache.peek]
  exact shardGet_fst _ _

theorem peek_update_same (hash : K → Nat) (c : Cache K V) (k : K)
    {s' : Shard K V} {n : Int} :
    Cache.peek hash { c with
      shards := Function.update c.shards (shardIdx hash k) s'
      entryCount := n } k = lookupA s'.entries k := by
  simp only [Cache.peek]
  rw [Function.update_same]

theorem peek_update_lookup (hash : K → Nat) (c : Cache K V) (k k' : K)
    {s' : Shard K V} {n : Int}
    (h : lookupA s'.entries k' =
      lookupA (c.shards (shardIdx hash k)).entries k') :
    Cache.peek hash { c with
      shards := Function.update c.shards (shardIdx hash k) s'
      entryCount := n } k' = Cache.peek hash c k' := by
  simp only [Cache.peek]
  by_cases hsh : shardIdx hash k' = shardIdx hash k
  · rw [hsh, Function.update_same, h]
  · rw [Function.update_noteq hsh]

end CacheLemmas

/-! ### Claims C4, C5, C6 -/

section ClaimsLocal

variable {K V : Type} [DecidableEq K] [Inhabited K]

/-- C6: if `k` is already present, `Set(k, v2)` overwrites the value in
place so a subsequent `Get(k)` returns `v2`, and changes nothing else: no
eviction runs, the ring and write cursor are unmutated, and the live count
and eviction counter are unchanged (only the set-calls counter of the
target shard increments). -/
theorem claim_C6_update_in_place (hash : K → Nat) (c : Cache K V) (k : K)
    (v2 : V) (hpres : (Cache.peek hash c k).isSome = true) :
    (Cache.get hash (Cache.set hash c k v2) k).1 = some v2 ∧
    (Cache.set hash c k v2).entryCount = c.entryCount ∧
    (∀ i, ((Cache.set hash c k v2).shards i).order = (c.shards i).order) ∧
    (∀ i, ((Cache.set hash c k v2).shards i).writeIdx =
      (c.shards i).writeIdx) ∧
    (∀ i, ((Cache.set hash c k v2).shards i).evictions =
      (c.shards i).evictions) ∧
    (∀ i, ((Cache.set hash c k v2).shards i).getCalls =
      (c.shards i).getCalls) ∧
    (∀ i, ((Cache.set hash c k v2).shards i).misses = (c.shards i).misses) ∧
    (∀ i, ((Cache.set hash c k v2).shards i).deletes =
      (c.shards i).deletes) ∧
    ((Cache.set hash c k v2).shards (shardIdx hash k)).setCalls =
      (c.shards (shardIdx hash k)).setCalls + 1 ∧
    (∀ i, i ≠ shardIdx hash k →
      (Cache.set hash c k v2).shards i = c.shards i) := by
  have heq : Cache.set hash c k v2 = { c with
      shards := Function.update c.shards (shardIdx hash k)
        ({ c.shards (shardIdx hash k) with
            setCalls := (c.shards (shardIdx hash k)).setCalls + 1
            entries := insertA (c.shards (shardIdx hash k)).entries k v2 })
      entryCount := c.entryCount } := by
    simp only [Cache.set]
    rw [shardSet_present hpres]
  refine ⟨?_, ?_, ?_, ?_, ?_, ?_, ?_, ?_, ?_, ?_⟩
  · rw [cacheGet_fst, heq, peek_update_same]
    exact lookupA_insertA_self _ _ _
  · rw [heq]
  · intro i
    rw [heq]
    show (Function.update c.shards (shardIdx hash k) _ i).order = _
    rw [Function.update_apply]
    by_cases hi : i = shardIdx hash k <;> simp [hi]
  · intro i
    rw [heq]
    show (Function.update c.shards (shardIdx hash k) _ i).writeIdx = _
    rw [Function.update_apply]
    by_cases hi : i = shardIdx hash k <;> simp [hi]
  · intro i
    rw [heq]
    show (Function.update c.shards (shardIdx hash k) _ i).evictions = _
    rw [Function.update_apply]
    by_cases hi : i = shardIdx hash k <;> simp [hi]
  · intro i
    rw [heq]
    show (Function.update c.shards (shardIdx hash k) _ i).getCalls = _
    rw [Function.update_apply]
    by_cases hi : i = shardIdx hash k <;> simp [hi]
  · intro i
    rw [heq]
    show (Function.update c.shards (shardIdx hash k) _ i).misses = _
    rw [Function.update_apply]
    by_cases hi : i = shardIdx hash k <;> simp [hi]
  · intro i
    rw [heq]
    show (Function.update c.shards (shardIdx hash k) _ i).deletes = _
    rw [Function.update_apply]
    by_cases hi : i = shardIdx hash k <;> simp [hi]
  · rw [heq]
    show (Function.update c.shards _ _ _).setCalls = _
    rw [Function.update_same]
  · intro i hi
    rw [heq]
    show Function.update c.shards _ _ i = _
    rw [Function.update_noteq hi]

/-- C5: `Delete(k)` and `GetAndDelete(k)` increment the delete counter
unconditionally; on a miss the map and global counter are untouched and
`GetAndDelete` returns a miss; on a hit the key is removed, the counter
decremented, the previous value returned, and the ring (slots and cursor)
is left untouched, so the stale slot stays occupied. -/
theorem claim_C5_delete (hash : K → Nat) (c : Cache K V) (k : K)
    (hnd : ((c.shards (shardIdx hash k)).entries.map Prod.fst).Nodup) :
    ((Cache.delete hash c k).shards (shardIdx hash k)).deletes =
      (c.shards (shardIdx hash k)).deletes + 1 ∧
    ((Cache.getAndDelete hash c k).2.shards (shardIdx hash k)).deletes =
      (c.shards (shardIdx hash k)).deletes + 1 ∧
    (Cache.getAndDelete hash c k).2 = Cache.delete hash c k ∧
    (Cache.getAndDelete hash c k).1 = Cache.peek hash c k ∧
    (Cache.peek hash c k = none →
      (Cache.delete hash c k).entryCount = c.entryCount ∧
      ((Cache.delete hash c k).shards (shardIdx hash k)).entries =
        (c.shards (shardIdx hash k)).entries ∧
      ∀ k', Cache.peek hash (Cache.delete hash c k) k' =
        Cache.peek hash c k') ∧
    (∀ v0, Cache.peek hash c k = some v0 →
      (Cache.delete hash c k).entryCount = c.entryCount - 1 ∧
      Cache.peek hash (Cache.delete hash c k) k = none ∧
      (∀ k', k' ≠ k → Cache.peek hash (Cache.delete hash c k) k' =
        Cache.peek hash c k') ∧
      (∀ i, ((Cache.delete hash c k).shards i).order = (c.shards i).order) ∧
      (∀ i, ((Cache.delete hash c k).shards i).writeIdx =
        (c.shards i).writeIdx)) := by
  cases hcase : lookupA (c.shards (shardIdx hash k)).entries k with
  | none =>
    have heqD : Cache.delete hash c k = { c with
        shards := Function.update c.shards (shardIdx hash k)
          ({ c.shards (shardIdx hash k) with
              deletes := (c.shards (shardIdx hash k)).deletes + 1 })
        entryCount := c.entryCount } := by
      simp only [Cache.delete]
      rw [shardDelete_absent hcase]
    have heqG : (Cache.getAndDelete hash c k).2 = { c with
        shards := Function.update c.shards (shardIdx hash k)
          ({ c.shards (shardIdx hash k) with
              deletes := (c.shards (shardIdx hash k)).deletes + 1 })
        entryCount := c.entryCount } := by
      simp only [Cache.getAndDelete]
      rw [shardGetAndDelete_absent hcase]
    have hfst : (Cache.getAndDelete hash c k).1 = none := by
      simp only [Cache.getAndDelete]
      rw [shardGetAndDelete_absent hcase]
    have hpk : Cache.peek hash c k = none := hcase
    refine ⟨?_, ?_, heqG.trans heqD.symm, ?_, ?_, ?_⟩
    · rw [heqD]
      show (Function.update c.shards _ _ _).deletes = _
      rw [Function.update_same]
    · rw [heqG]
      show (Function.update c.shards _ _ _).deletes = _
      rw [Function.update_same]
    · rw [hfst, hpk]
    · intro _
      refine ⟨by rw [heqD], ?_, ?_⟩
      · rw [heqD]
        show (Function.update c.shards _ _ _).entries = _
        rw [Function.update_same]
      · intro k'
        rw [heqD]
        exact peek_update_lookup hash c k k' rfl
    · intro v0 hv0
      rw [hpk] at hv0
      simp at hv0
  | some v0 =>
    have hpres : (lookupA (c.shards (shardIdx hash k)).entries k).isSome =
        true := by rw [hcase]; rfl
    have heqD : Cache.delete hash c k = { c with
        shards := Function.update c.shards (shardIdx hash k)
          ({ c.shards (shardIdx hash k) with
              deletes := (c.shards (shardIdx hash k)).deletes + 1
              entries := eraseA (c.shards (shardIdx hash k)).entries k })
        entryCount := c.entryCount - 1 } := by
      simp only [Cache.delete]
      rw [shardDelete_present hpres]
    have heqG : (Cache.getAndDelete hash c k).2 = { c with
        shards := Function.update c.shards (shardIdx hash k)
          ({ c.shards (shardIdx hash k) with
              deletes := (c.shards (shardIdx hash k)).deletes + 1
              entries := eraseA (c.shards (shardIdx hash k)).entries k })
        entryCount := c.entryCount - 1 } := by
      simp only [Cache.getAndDelete]
      rw [shardGetAndDelete_present hcase]
    have hfst : (Cache.getAndDelete hash c k).1 = some v0 := by
      simp only [Cache.getAndDelete]
      rw [shardGetAndDelete_present hcase]
    refine ⟨?_, ?_, heqG.trans heqD.symm, ?_, ?_, ?_⟩
    · rw [heqD]
      show (Function.update c.shards _ _ _).deletes = _
      rw [Function.update_same]
    · rw [heqG]
      show (Function.update c.shards _ _ _).deletes = _
      rw [Function.update_same]
    · rw [hfst]
      exact hcase.symm
    · intro habs
      have habs2 : lookupA (c.shards (shardIdx hash k)).entries k = none :=
        habs
      rw [habs2] at hcase
      simp at hcase
    · intro v1 _
      refine ⟨by rw [heqD], ?_, ?_, ?_, ?_⟩
      · rw [heqD, peek_update_same]
        exact lookupA_eraseA_self hnd
      · intro k' hk'
        rw [heqD]
        exact peek_update_lookup hash c k k' (lookupA_eraseA_ne _ hk')
      · intro i
        rw [heqD]
        show (Function.update c.shards (shardIdx hash k) _ i).order = _
        rw [Function.update_apply]
        by_cases hi : i = shardIdx hash k <;> simp [hi]
      · intro i
        rw [heqD]
        show (Function.update c.shards (shardIdx hash k) _ i).writeIdx = _
        rw [Function.update_apply]
        by_cases hi : i = shardIdx hash k <;> simp [hi]

/-- C4: `GetOrSet` and `SetIfAbsent` have the same branch structure.  On a
miss both perform exactly the mutation of `Set` and return `(v, false)`
resp. `true`; on a hit the stored value is untouched, `GetOrSet` returns
`(existing, true)` while only bumping the target shard's get counter, and
`SetIfAbsent` returns `false` leaving the cache exactly unchanged. -/
theorem claim_C4_getOrSet_setIfAbsent (hash : K → Nat) (c : Cache K V)
    (k : K) (v : V) :
    (Cache.peek hash c k = none →
      (Cache.getOrSet hash c k v).1 = (v, false) ∧
      (Cache.getOrSet hash c k v).2 = Cache.set hash c k v ∧
      (Cache.setIfAbsent hash c k v).1 = true ∧
      (Cache.setIfAbsent hash c k v).2 = Cache.set hash c k v ∧
      (Cache.get hash (Cache.set hash c k v) k).1 = some v) ∧
    (∀ v0, Cache.peek hash c k = some v0 →
      (Cache.getOrSet hash c k v).1 = (v0, true) ∧
      (Cache.setIfAbsent hash c k v).1 = false ∧
      (Cache.setIfAbsent hash c k v).2 = c ∧
      (Cache.getOrSet hash c k v).2 = { c with
        shards := Function.update c.shards (shardIdx hash k)
          ({ c.shards (shardIdx hash k) with
              getCalls := (c.shards (shardIdx hash k)).getCalls + 1 }) }) := by
  constructor
  · intro habs
    have habs' : lookupA (c.shards (shardIdx hash k)).entries k = none := habs
    refine ⟨?_, ?_, ?_, ?_, ?_⟩
    · simp only [Cache.getOrSet]
      rw [shardGetOrSet_absent habs']
    · simp only [Cache.getOrSet, Cache.set]
      rw [shardGetOrSet_absent habs', shardSet_absent habs']
    · simp only [Cache.setIfAbsent]
      rw [shardSetIfAbsent_absent habs']
    · simp only [Cache.setIfAbsent, Cache.set]
      rw [shardSetIfAbsent_absent habs', shardSet_absent habs']
    · rw [cacheGet_fst]
      have heq : Cache.set hash c k v = { c with
          shards := Function.update c.shards (shardIdx hash k)
            (insertFresh k v (evictLoop c.maxEntries
              (c.shards (shardIdx hash k)).order.length
              ({ c.shards (shardIdx hash k) with
                  setCalls := (c.shards (shardIdx hash k)).setCalls + 1 },
                c.entryCount))).1
          entryCount := (insertFresh k v (evictLoop c.maxEntries
              (c.shards (shardIdx hash k)).order.length
              ({ c.shards (shardIdx hash k) with
                  setCalls := (c.shards (shardIdx hash k)).setCalls + 1 },
                c.entryCount))).2 } := by
        simp only [Cache.set]
        rw [shardSet_absent habs']
      rw [heq, peek_update_same]
      simp only [insertFresh]
      exact lookupA_insertA_self _ _ _
  · intro v0 hv0
    have hv0' : lookupA (c.shards (shardIdx hash k)).entries k = some v0 := hv0
    have hpres : (lookupA (c.shards (shardIdx hash k)).entries k).isSome =
        true := by rw [hv0']; rfl
    refine ⟨?_, ?_, ?_, ?_⟩
    · simp only [Cache.getOrSet]
      rw [shardGetOrSet_present hv0']
    · simp only [Cache.setIfAbsent]
      rw [shardSetIfAbsent_present hpres]
    · show ({ c with
        shards := Function.update c.shards (shardIdx hash k)
          (Shard.setIfAbsent c.maxEntries (c.shards (shardIdx hash k))
            c.entryCount k v).2.1
        entryCount := (Shard.setIfAbsent c.maxEntries
          (c.shards (shardIdx hash k)) c.entryCount k v).2.2 } : Cache K V)
        = c
      rw [shardSetIfAbsent_present hpres]
      show ({ c with
        shards := Function.update c.shards (shardIdx hash k)
          (c.shards (shardIdx hash k))
        entryCount := c.entryCount } : Cache K V) = c
      rw [Function.update_eq_self]
    · simp only [Cache.getOrSet]
      rw [shardGetOrSet_present hv0']

end ClaimsLocal

/-! ### Claim C2: the eviction loop against its specification wording -/

section SpecLoop

variable {K V : Type} [DecidableEq K] [Inhabited K]

/-- Spec-side description of one loop iteration, following the claim's
wording: at an occupied slot whose key is still in the map, remove that
key, mark the slot unoccupied, decrement the global counter and increment
the eviction counter; at an occupied slot whose key is absent, only mark
the slot unoccupied; and advance the write cursor by one modulo ring
length on every iteration regardless of outcome. -/
def evictStepSpec (p : Shard K V × Int) : Shard K V × Int :=
  let s := p.1
  let slot := s.order.getD s.writeIdx emptySlot
  let p1 :=
    if slot.valid = true then
      if slot.key ∈ s.entries.map Prod.fst then
        ({ s with entries := eraseA s.entries slot.key
                  order := s.order.set s.writeIdx ⟨slot.key, false⟩
                  evictions := s.evictions + 1 }, p.2 - 1)
      else
        ({ s with order := s.order.set s.writeIdx ⟨slot.key, false⟩ }, p.2)
    else p
  ({ p1.1 with writeIdx := (p1.1.writeIdx + 1) % p1.1.order.length }, p1.2)

/-- Spec-side loop: the body runs while the global live counter is at or
above capacity, the shard's map is non-empty, and fewer than ring-length
slots have been visited. -/
def evictLoopSpec (m : Nat) (ringLen : Nat) (p : Shard K V × Int) :
    Shard K V × Int :=
  (List.range ringLen).foldl
    (fun st _ =>
      if (m : Int) ≤ st.2 ∧ 0 < st.1.entries.length then evictStepSpec st
      else st) p

theorem evictStepSpec_eq (p : Shard K V × Int) :
    evictStepSpec p = evictStep p := by
  simp only [evictStepSpec, evictStep]
  by_cases hv : (p.1.order.getD p.1.writeIdx emptySlot).valid = true
  · rw [if_pos hv, if_pos hv]
    by_cases hm : (lookupA p.1.entries
        (p.1.order.getD p.1.writeIdx emptySlot).key).isSome = true
    · rw [if_pos hm, if_pos ((lookupA_isSome_iff _ _).mp hm)]
      simp only [List.length_set]
    · rw [if_neg hm, if_neg (fun hmem => hm ((lookupA_isSome_iff _ _).mpr hmem))]
      simp only [List.length_set]
  · rw [if_neg hv, if_neg hv]

theorem foldl_const_eq_iterate {α β : Type} (g : α → α) (l : List β) :
    ∀ p : α, l.foldl (fun st _ => g st) p = g^[l.length] p := by
  induction l with
  | nil => exact fun p => rfl
  | cons x t ih =>
    intro p
    rw [List.foldl_cons, List.length_cons, Function.iterate_succ_apply]
    exact ih (g p)

theorem iterate_fixed_of {α : Type} (g : α → α) (p : α) (h : g p = p) :
    ∀ n : Nat, g^[n] p = p := by
  intro n
  induction n with
  | zero => rfl
  | succ n ih => rw [Function.iterate_succ_apply, h, ih]

theorem evictLoop_eq_iterate (m : Nat) : ∀ (fuel : Nat) (p : Shard K V × Int),
    evictLoop m fuel p =
      (fun st => if (m : Int) ≤ st.2 ∧ 0 < st.1.entries.length then
        evictStep st else st)^[fuel] p := by
  intro fuel
  induction fuel with
  | zero => exact fun p => rfl
  | succ n ih =>
    intro p
    rw [show (evictLoop m (n + 1) p) = (if (m : Int) ≤ p.2 ∧
        0 < p.1.entries.length then evictLoop m n (evictStep p) else p)
        from rfl, Function.iterate_succ_apply]
    by_cases hgate : (m : Int) ≤ p.2 ∧ 0 < p.1.entries.length
    · rw [if_pos hgate]
      have : (if (m : Int) ≤ p.2 ∧ 0 < p.1.entries.length then evictStep p
          else p) = evictStep p := if_pos hgate
      rw [this]
      exact ih (evictStep p)
    · rw [if_neg hgate]
      have hfix : (if (m : Int) ≤ p.2 ∧ 0 < p.1.entries.length then
          evictStep p else p) = p := if_neg hgate
      rw [hfix]
      exact (iterate_fixed_of (fun st : Shard K V × Int =>
        if (m : Int) ≤ st.2 ∧ 0 < st.1.entries.length then evictStep st
        else st) p hfix n).symm

theorem evictLoopSpec_eq (m : Nat) (fuel : Nat) (p : Shard K V × Int) :
    evictLoopSpec m fuel p = evictLoop m fuel p := by
  unfold evictLoopSpec
  rw [foldl_const_eq_iterate, List.length_range, evictLoop_eq_iterate]
  have hfun : (fun st : Shard K V × Int =>
      if (m : Int) ≤ st.2 ∧ 0 < st.1.entries.length then evictStepSpec st
      else st) = (fun st => if (m : Int) ≤ st.2 ∧ 0 < st.1.entries.length
      then evictStep st else st) := by
    funext st
    rw [evictStepSpec_eq]
  rw [hfun]

/-- C2: in `Set` on an absent key (and in the identical miss paths of
`GetOrSet` and `SetIfAbsent`), the mutation is exactly: run the spec-side
eviction loop (visit at most ring-length slots while the counter is at
capacity and the map non-empty; evict occupied-and-present slots with a
counter decrement and an eviction-count increment; merely unoccupy
occupied-but-absent slots; advance the cursor each iteration), then write
the new key as an occupied slot at the cursor, advance the cursor, insert
the entry, and increment the global counter. -/
theorem claim_C2_eviction_loop (m : Nat) (s : Shard K V) (cnt : Int)
    (k : K) (v : V) (habs : lookupA s.entries k = none) :
    Shard.set m s cnt k v =
      insertFresh k v (evictLoopSpec m s.order.length
        ({ s with setCalls := s.setCalls + 1 }, cnt)) ∧
    (Shard.getOrSet m s cnt k v).2 = Shard.set m s cnt k v ∧
    (Shard.setIfAbsent m s cnt k v).2 = Shard.set m s cnt k v := by
  refine ⟨?_, ?_, ?_⟩
  · rw [shardSet_absent habs, evictLoopSpec_eq]
  · rw [shardGetOrSet_absent habs, shardSet_absent habs]
  · rw [shardSetIfAbsent_absent habs, shardSet_absent habs]

/-- Witness for C2 at a concrete shard state. -/
theorem claim_C2_witness :
    Shard.set 1 (⟨0, 0, 0, 0, 0, [(1, 10)], [⟨1, true⟩], 0⟩ : Shard Nat Nat)
        1 2 20 =
      insertFresh 2 20 (evictLoopSpec 1 1
        (⟨0, 1, 0, 0, 0, [(1, 10)], [⟨1, true⟩], 0⟩, 1)) :=
  (claim_C2_eviction_loop 1 ⟨0, 0, 0, 0, 0, [(1, 10)], [⟨1, true⟩], 0⟩ 1 2 20
    (by decide)).1

end SpecLoop

/-! ### Concrete material for witnesses -/

/-- A concrete hash for witnesses: the identity digest on `Nat` keys. -/
def hashId : Nat → Nat := id

/-- A small populated cache: capacity 100, one entry `(5, 1)`. -/
def cacheW : Cache Nat Nat := Cache.set hashId (New Nat Nat 100) 5 1

/-- Witness for C6 at a concrete present key. -/
theorem claim_C6_witness :
    (Cache.get hashId (Cache.set hashId cacheW 5 2) 5).1 = some 2 ∧
    (Cache.set hashId cacheW 5 2).entryCount = cacheW.entryCount :=
  ⟨(claim_C6_update_in_place hashId cacheW 5 2 (by decide)).1,
   (claim_C6_update_in_place hashId cacheW 5 2 (by decide)).2.1⟩

/-- Witness for C5 at a concrete key. -/
theorem claim_C5_witness :
    ((Cache.delete hashId cacheW 5).shards (shardIdx hashId 5)).deletes =
      (cacheW.shards (shardIdx hashId 5)).deletes + 1 ∧
    (Cache.getAndDelete hashId cacheW 5).2 = Cache.delete hashId cacheW 5 ∧
    (Cache.getAndDelete hashId cacheW 5).1 = Cache.peek hashId cacheW 5 :=
  ⟨(claim_C5_delete hashId cacheW 5 (by decide)).1,
   (claim_C5_delete hashId cacheW 5 (by decide)).2.2.1,
   (claim_C5_delete hashId cacheW 5 (by decide)).2.2.2.1⟩

/-- Witness for C4 exercising both branches. -/
theorem claim_C4_witness :
    (Cache.getOrSet hashId cacheW 7 9).1 = (9, false) ∧
    (Cache.getOrSet hashId cacheW 5 9).1 = (1, true) ∧
    (Cache.setIfAbsent hashId cacheW 5 9).2 = cacheW :=
  ⟨((claim_C4_getOrSet_setIfAbsent hashId cacheW 7 9).1 (by decide)).1,
   ((claim_C4_getOrSet_setIfAbsent hashId cacheW 5 9).2 1 (by decide)).1,
   ((claim_C4_getOrSet_setIfAbsent hashId cacheW 5 9).2 1 (by decide)).2.2.1⟩

/-! ### Claims C9 and C10 -/

section ClaimsGlobal

variable {K V : Type} [DecidableEq K] [Inhabited K]

theorem map_const_replicate {α β : Type} (l : List α) (b : β) :
    l.map (fun _ => b) = List.replicate l.length b := by
  induction l with
  | nil => rfl
  | cons x t ih => simp [List.replicate_succ, ih]

/-- C10: in any sequential execution, after every completed operation the
global entry counter equals the exact sum of map sizes over all 512
shards, so `Len` returns exactly the number of resident entries. -/
theorem claim_C10_len_exact (hash : K → Nat) (c : Cache K V)
    (h : Reach hash c) :
    c.entryCount = (Cache.totalSize c : Int) ∧
    Cache.len c = (Cache.totalSize c : Int) :=
  ⟨(Reach_WF hash h).countEq, (Reach_WF hash h).countEq⟩

/-- Witness for C10 at a concrete reachable state. -/
theorem claim_C10_witness :
    (Cache.set hashId (New Nat Nat 3) 1 5).entryCount =
      ((Cache.set hashId (New Nat Nat 3) 1 5).totalSize : Int) :=
  (claim_C10_len_exact hashId _ (Reach.set 1 5 (Reach.new 3 (by decide)))).1

/-- C9: after `Reset`, the cache is exactly a freshly constructed cache of
the same capacity: `Len` is 0, every `Get` misses, every shard's map is
empty, every ring slot is unoccupied, every write cursor is 0, all
per-shard counters are zero, and the global counter holds 0. -/
theorem claim_C9_reset (hash : K → Nat) (c : Cache K V) (h : Reach hash c) :
    Cache.reset c = New K V c.maxEntries ∧
    Cache.len (Cache.reset c) = 0 ∧
    (∀ k, (Cache.get hash (Cache.reset c) k).1 = none) ∧
    (∀ i, ((Cache.reset c).shards i).entries = []) ∧
    (∀ i, ((Cache.reset c).shards i).order =
      List.replicate (entriesPerShard c.maxEntries) emptySlot) ∧
    (∀ i, ((Cache.reset c).shards i).writeIdx = 0) ∧
    (∀ i, ((Cache.reset c).shards i).getCalls = 0 ∧
      ((Cache.reset c).shards i).setCalls = 0 ∧
      ((Cache.reset c).shards i).misses = 0 ∧
      ((Cache.reset c).shards i).deletes = 0 ∧
      ((Cache.reset c).shards i).evictions = 0) ∧
    (Cache.reset c).entryCount = 0 := by
  have hwf := Reach_WF hash h
  have hsh : (fun i => Shard.reset (c.shards i)) =
      (fun _ : Fin shardsCount => (freshShard c.maxEntries : Shard K V)) := by
    funext i
    show Shard.reset (c.shards i) = freshShard c.maxEntries
    unfold Shard.reset freshShard
    congr 1
    rw [map_const_replicate, hwf.ringLen i]
  have hNew : Cache.reset c = New K V c.maxEntries := by
    show Cache.mk (fun i => Shard.reset (c.shards i)) c.maxEntries 0 =
      Cache.mk (fun _ => freshShard c.maxEntries) c.maxEntries 0
    rw [hsh]
  refine ⟨hNew, rfl, ?_, fun i => rfl, ?_, fun i => rfl,
    fun i => ⟨rfl, rfl, rfl, rfl, rfl⟩, rfl⟩
  · intro k
    rw [cacheGet_fst]
    rfl
  · intro i
    rw [hNew]
    rfl

/-- Witness for C9 at a concrete reachable state. -/
theorem claim_C9_witness :
    Cache.reset (Cache.set hashId (New Nat Nat 7) 1 2) =
      New Nat Nat (Cache.set hashId (New Nat Nat 7) 1 2).maxEntries ∧
    (Cache.get hashId
      (Cache.reset (Cache.set hashId (New Nat Nat 7) 1 2)) 1).1 = none :=
  ⟨(claim_C9_reset hashId _ (Reach.set 1 2 (Reach.new 7 (by decide)))).1,
   (claim_C9_reset hashId _ (Reach.set 1 2 (Reach.new 7 (by decide)))).2.2.1 1⟩

end ClaimsGlobal

/-! ### Claim C1: the capacity-bound counterexample -/

/-- C1 fails on the code: with capacity C = 1, two sequential `Set` calls
with the distinct keys 0 and 1 (which route to different shards) leave
`Len` at 2 > C, because the eviction loop is skipped whenever the acting
shard's own map is empty, even though the global counter is at capacity.
Moreover the first inserted key (which the claim says must be
unretrievable after C + k = 2 distinct inserts) is still retrievable. -/
theorem claim_C1_counterexample :
    Cache.len (Cache.set hashId
      (Cache.set hashId (New Nat Nat 1) 0 10) 1 11) = 2 ∧
    (1 : Int) < Cache.len (Cache.set hashId
      (Cache.set hashId (New Nat Nat 1) 0 10) 1 11) ∧
    (Cache.get hashId (Cache.set hashId
      (Cache.set hashId (New Nat Nat 1) 0 10) 1 11) 0).1 = some 10 :=
  ⟨by decide, by decide, by decide⟩

/-! ### Snapshot persistence (`save`, `load`)

The `gob`/`snappy` codec is external (spec §6: a structured encoder with
`decode (encode x) = x` and a self-delimiting stream), so the stream is a
token list: the capacity header, the total entry count, then the entries.
`Cache.save` collects each shard's entries (workers report per shard
index; the orchestrator stores them by index and emits them in ascending
shard-index order), writes the capacity, the summed total, then every
entry.  `load` decodes the capacity, builds `New`, decodes the count and
then decodes and `Set`s each entry sequentially. -/

section Snapshot

variable {K V : Type} [DecidableEq K] [Inhabited K]

/-- One decoded stream element. -/
inductive Token (K V : Type)
  | num (n : Int)
  | kv (k : K) (v : V)

/-- Outcome of a load: a cache, a returned error, or a Go panic
(`New` panics on a non-positive decoded capacity). -/
inductive LoadResult (K V : Type)
  | ok (c : Cache K V)
  | err
  | panicked

/-- Per-shard entry lists concatenated in ascending shard-index order. -/
def saveEntries (c : Cache K V) : List (K × V) :=
  ((List.finRange shardsCount).map (fun i => (c.shards i).entries)).join

/-- `totalEntries`: the summed per-shard entry counts. -/
def saveTotal (c : Cache K V) : Nat :=
  ((List.finRange shardsCount).map
    (fun i => (c.shards i).entries.length)).sum

/-- The stream written by `Cache.save`. -/
def saveStream (c : Cache K V) : List (Token K V) :=
  Token.num (c.maxEntries : Int) :: Token.num (saveTotal c : Int) ::
    (saveEntries c).map (fun e => Token.kv e.1 e.2)

/-- The orchestrator's result table: worker results arrive in the order
`ord` and are stored into the slot of their shard index. -/
def gatherShards (c : Cache K V) (ord : List (Fin shardsCount)) :
    Fin shardsCount → List (K × V) :=
  ord.foldl (fun t i => Function.update t i (c.shards i).entries)
    (fun _ => [])

/-- The stream written by the concurrent save when worker results arrive
in completion order `ord`. -/
def saveStreamWith (c : Cache K V) (ord : List (Fin shardsCount)) :
    List (Token K V) :=
  Token.num (c.maxEntries : Int) ::
    Token.num (((List.finRange shardsCount).map
      (fun i => (gatherShards c ord i).length)).sum : Int) ::
    (((List.finRange shardsCount).map (gatherShards c ord)).join).map
      (fun e => Token.kv e.1 e.2)

/-- Decode `total` entries, `Set`ting each into the cache. -/
def readEntries (hash : K → Nat) :
    Cache K V → Nat → List (Token K V) → LoadResult K V
  | c, 0, _ => .ok c
  | _, _ + 1, [] => .err
  | _, _ + 1, Token.num _ :: _ => .err
  | c, n + 1, Token.kv k v :: rest =>
    readEntries hash (Cache.set hash c k v) n rest

/-- `load`: decode the capacity (any malformed head is an error; a
non-positive capacity makes `New` panic), build a fresh cache, decode the
count, then decode and `Set` every entry. -/
def loadStream (hash : K → Nat) : List (Token K V) → LoadResult K V
  | Token.num mE :: rest =>
    if mE ≤ 0 then .panicked
    else
      match rest with
      | Token.num total :: rest2 =>
        readEntries hash (New K V mE.toNat) total.toNat rest2
      | _ => .err
  | _ => .err

/-- `LoadFromFile`: a missing file is an error; otherwise decode the
stream. -/
def loadFromFile (hash : K → Nat) :
    Option (List (Token K V)) → LoadResult K V
  | none => .err
  | some ts => loadStream hash ts

/-- `LoadFromFileOrNew`: return the loaded cache on success and fall back
to `New maxEntries` on any returned error (a panic still propagates). -/
def loadFromFileOrNew (hash : K → Nat) (file : Option (List (Token K V)))
    (mE : Int) : LoadResult K V :=
  match loadFromFile hash file with
  | .ok c => .ok c
  | .err => if mE ≤ 0 then .panicked else .ok (New K V mE.toNat)
  | .panicked => .panicked

/-- Loading a list of pairs is a sequential fold of `Set`. -/
def loadList (hash : K → Nat) (c0 : Cache K V) (l : List (K × V)) :
    Cache K V :=
  l.foldl (fun c e => Cache.set hash c e.1 e.2) c0

theorem readEntries_map (hash : K → Nat) : ∀ (l : List (K × V))
    (c0 : Cache K V),
    readEntries hash c0 l.length (l.map (fun e => Token.kv e.1 e.2)) =
      LoadResult.ok (loadList hash c0 l) := by
  intro l
  induction l with
  | nil => exact fun c0 => rfl
  | cons e t ih =>
    intro c0
    obtain ⟨k1, v1⟩ := e
    show readEntries hash (Cache.set hash c0 k1 v1) t.length
      (t.map (fun e => Token.kv e.1 e.2)) = _
    exact ih (Cache.set hash c0 k1 v1)

/-- A fresh insert below capacity runs no eviction: the counter goes up by
one, the new key is retrievable, and every other key is untouched. -/
theorem set_fresh_facts (hash : K → Nat) (c : Cache K V) (k : K) (v : V)
    (habs : Cache.peek hash c k = none)
    (hlt : c.entryCount < (c.maxEntries : Int)) :
    (Cache.set hash c k v).entryCount = c.entryCount + 1 ∧
    (Cache.set hash c k v).maxEntries = c.maxEntries ∧
    Cache.peek hash (Cache.set hash c k v) k = some v ∧
    (∀ k', k' ≠ k → Cache.peek hash (Cache.set hash c k v) k' =
      Cache.peek hash c k') := by
  have habs' : lookupA (c.shards (shardIdx hash k)).entries k = none := habs
  have hloop : evictLoop c.maxEntries
      (c.shards (shardIdx hash k)).order.length
      ({ c.shards (shardIdx hash k) with
          setCalls := (c.shards (shardIdx hash k)).setCalls + 1 },
        c.entryCount) =
      ({ c.shards (shardIdx hash k) with
          setCalls := (c.shards (shardIdx hash k)).setCalls + 1 },
        c.entryCount) :=
    evictLoop_gate_false (fun hc => absurd hc.1 (by omega)) _
  have heq : Cache.set hash c k v = { c with
      shards := Function.update c.shards (shardIdx hash k)
        (insertFresh k v
          ({ c.shards (shardIdx hash k) with
              setCalls := (c.shards (shardIdx hash k)).setCalls + 1 },
            c.entryCount)).1
      entryCount := (insertFresh k v
          ({ c.shards (shardIdx hash k) with
              setCalls := (c.shards (shardIdx hash k)).setCalls + 1 },
            c.entryCount)).2 } := by
    simp only [Cache.set]
    rw [shardSet_absent habs', hloop]
  refine ⟨by rw [heq]; rfl, by rw [heq], ?_, ?_⟩
  · rw [heq, peek_update_same]
    exact lookupA_insertA_self _ _ _
  · intro k' hk'
    rw [heq]
    exact peek_update_lookup hash c k k' (lookupA_insertA_ne _ _ hk')

theorem loadList_facts (hash : K → Nat) : ∀ (l : List (K × V))
    (c0 : Cache K V),
    (l.map Prod.fst).Nodup →
    (∀ e ∈ l, Cache.peek hash c0 e.1 = none) →
    c0.entryCount + (l.length : Int) ≤ (c0.maxEntries : Int) →
    (loadList hash c0 l).entryCount = c0.entryCount + (l.length : Int) ∧
    (loadList hash c0 l).maxEntries = c0.maxEntries ∧
    (∀ k, Cache.peek hash (loadList hash c0 l) k =
      (lookupA l k).orElse (fun _ => Cache.peek hash c0 k)) := by
  intro l
  induction l with
  | nil =>
    intro c0 _ _ _
    refine ⟨by simp [loadList], rfl, ?_⟩
    intro k
    simp [loadList, lookupA, Option.orElse]
  | cons e t ih =>
    intro c0 hnd hall hcap
    obtain ⟨k1, v1⟩ := e
    simp only [List.map_cons, List.nodup_cons] at hnd
    have habs1 : Cache.peek hash c0 k1 = none :=
      hall (k1, v1) (List.mem_cons_self _ _)
    have hlt1 : c0.entryCount < (c0.maxEntries : Int) := by
      simp only [List.length_cons] at hcap
      push_cast at hcap
      omega
    obtain ⟨g1, g2, g3, g4⟩ := set_fresh_facts hash c0 k1 v1 habs1 hlt1
    have hstep : loadList hash c0 ((k1, v1) :: t) =
        loadList hash (Cache.set hash c0 k1 v1) t := rfl
    have hallT : ∀ e ∈ t, Cache.peek hash (Cache.set hash c0 k1 v1) e.1 =
        none := by
      intro e he
      have hne : e.1 ≠ k1 := by
        intro hEq
        exact hnd.1 (hEq ▸ List.mem_map.mpr ⟨e, he, rfl⟩)
      rw [g4 e.1 hne]
      exact hall e (List.mem_cons_of_mem _ he)
    have hcapT : (Cache.set hash c0 k1 v1).entryCount + (t.length : Int) ≤
        ((Cache.set hash c0 k1 v1).maxEntries : Int) := by
      rw [g1, g2]
      simp only [List.length_cons] at hcap
      push_cast at hcap
      omega
    obtain ⟨i1, i2, i3⟩ := ih (Cache.set hash c0 k1 v1) hnd.2 hallT hcapT
    refine ⟨?_, ?_, ?_⟩
    · rw [hstep, i1, g1]
      simp only [List.length_cons]
      push_cast
      ring
    · rw [hstep, i2, g2]
    · intro k
      rw [hstep, i3 k]
      by_cases hk : k = k1
      · subst hk
        have hlt : lookupA t k = none := by
          rw [lookupA_none_iff]
          exact hnd.1
        rw [hlt]
        show Cache.peek hash (Cache.set hash c0 k v1) k =
          (lookupA ((k, v1) :: t) k).orElse
            (fun _ => Cache.peek hash c0 k)
        rw [g3]
        simp [lookupA, Option.orElse]
      · have hcons : lookupA ((k1, v1) :: t) k = lookupA t k := by
          simp [lookupA, hk]
        rw [hcons, g4 k hk]

theorem lookupA_join_all_none {ι : Type} (f : ι → List (K × V)) (k : K) :
    ∀ is : List ι, (∀ i ∈ is, lookupA (f i) k = none) →
    lookupA ((is.map f).join) k = none := by
  intro is
  induction is with
  | nil => intro _; rfl
  | cons i rest ih =>
    intro hall
    rw [List.map_cons]
    have hjoin : (f i :: List.map f rest).join =
        f i ++ (List.map f rest).join := rfl
    rw [hjoin, lookupA_append, hall i (List.mem_cons_self _ _),
      ih (fun j hj => hall j (List.mem_cons_of_mem _ hj))]
    rfl

theorem lookupA_join_of_unique {ι : Type} [DecidableEq ι]
    (f : ι → List (K × V)) (j : ι) (k : K) :
    ∀ is : List ι, j ∈ is → is.Nodup →
    (∀ i ∈ is, i ≠ j → lookupA (f i) k = none) →
    lookupA ((is.map f).join) k = lookupA (f j) k := by
  intro is
  induction is with
  | nil => intro h; cases h
  | cons i rest ih =>
    intro hmem hnd hall
    rw [List.nodup_cons] at hnd
    rw [List.map_cons]
    have hjoin : (f i :: List.map f rest).join =
        f i ++ (List.map f rest).join := rfl
    rw [hjoin, lookupA_append]
    by_cases hij : i = j
    · subst hij
      cases hcase : lookupA (f i) k with
      | some v => rfl
      | none =>
        rw [lookupA_join_all_none f k rest (fun j2 hj2 =>
          hall j2 (List.mem_cons_of_mem _ hj2)
            (fun hEq => hnd.1 (hEq ▸ hj2)))]
        rfl
    · rw [hall i (List.mem_cons_self _ _) hij]
      have hjrest : j ∈ rest := by
        rcases List.mem_cons.mp hmem with h | h
        · exact absurd h.symm hij
        · exact h
      rw [ih hjrest hnd.2 (fun i2 hi2 => hall i2
        (List.mem_cons_of_mem _ hi2))]
      rfl

theorem saveEntries_lookup (hash : K → Nat) (c : Cache K V)
    (hwf : WF hash c) (k : K) :
    lookupA (saveEntries c) k = Cache.peek hash c k := by
  unfold saveEntries
  rw [lookupA_join_of_unique (fun i => (c.shards i).entries)
    (shardIdx hash k) k (List.finRange shardsCount)
    (List.mem_finRange _) (List.nodup_finRange _) ?_]
  · rfl
  · intro i _ hne
    cases hcase : lookupA (c.shards i).entries k with
    | none => rfl
    | some v =>
      have hk : k ∈ (c.shards i).entries.map Prod.fst := by
        rw [← lookupA_isSome_iff, hcase]
        rfl
      exact absurd (hwf.routing i k hk).symm hne

theorem saveEntries_nodup (hash : K → Nat) (c : Cache K V)
    (hwf : WF hash c) : ((saveEntries c).map Prod.fst).Nodup := by
  unfold saveEntries
  rw [List.map_join, List.map_map]
  rw [List.nodup_join]
  constructor
  · intro l hl
    rw [List.mem_map] at hl
    obtain ⟨i, _, hi⟩ := hl
    rw [← hi]
    exact hwf.nodupKeys i
  · rw [List.pairwise_map]
    refine List.Pairwise.imp ?_ (List.nodup_finRange shardsCount)
    intro i j hij
    intro k hki hkj
    have h1 := hwf.routing i k hki
    have h2 := hwf.routing j k hkj
    exact hij (h1 ▸ h2)

theorem saveTotal_eq_length (c : Cache K V) :
    saveTotal c = (saveEntries c).length := by
  unfold saveTotal saveEntries
  rw [List.length_join, List.map_map]
  rfl

theorem totalSize_eq_saveTotal (c : Cache K V) :
    Cache.totalSize c = saveTotal c := by
  unfold Cache.totalSize saveTotal
  rw [Fin.sum_univ_def]

/-- C3: saving a reachable cache with M < C live entries and loading the
stream back yields a cache with exactly M entries, the same capacity, and
the identical `Get` result for every key. -/
theorem claim_C3_roundtrip (hash : K → Nat) (c : Cache K V)
    (h : Reach hash c) (hM : c.entryCount < (c.maxEntries : Int)) :
    ∃ c2 : Cache K V, loadStream hash (saveStream c) = LoadResult.ok c2 ∧
      c2.entryCount = c.entryCount ∧
      c2.maxEntries = c.maxEntries ∧
      (∀ k, (Cache.get hash c2 k).1 = (Cache.get hash c k).1) := by
  have hwf := Reach_WF hash h
  have hnd := saveEntries_nodup hash c hwf
  have hlen : saveTotal c = (saveEntries c).length := saveTotal_eq_length c
  have hcnt : c.entryCount = ((saveEntries c).length : Int) := by
    rw [hwf.countEq, totalSize_eq_saveTotal, hlen]
  have hbound : (New K V c.maxEntries).entryCount +
      ((saveEntries c).length : Int) ≤
      ((New K V c.maxEntries).maxEntries : Int) := by
    show (0 : Int) + ((saveEntries c).length : Int) ≤ (c.maxEntries : Int)
    omega
  obtain ⟨p1, p2, p3⟩ := loadList_facts hash (saveEntries c)
    (New K V c.maxEntries) hnd (fun e _ => rfl) hbound
  refine ⟨loadList hash (New K V c.maxEntries) (saveEntries c),
    ?_, ?_, p2, ?_⟩
  · show loadStream hash (Token.num (c.maxEntries : Int) ::
      Token.num (saveTotal c : Int) ::
      (saveEntries c).map (fun e => Token.kv e.1 e.2)) = _
    have hred : loadStream hash (Token.num (c.maxEntries : Int) ::
        Token.num (saveTotal c : Int) ::
        (saveEntries c).map (fun e => Token.kv e.1 e.2)) =
        if (c.maxEntries : Int) ≤ 0 then LoadResult.panicked
        else readEntries hash (New K V ((c.maxEntries : Int)).toNat)
          ((saveTotal c : Int)).toNat
          ((saveEntries c).map (fun e => Token.kv e.1 e.2)) := rfl
    rw [hred, if_neg (by have := hwf.pos; omega)]
    rw [Int.toNat_natCast, Int.toNat_natCast, hlen]
    exact readEntries_map hash (saveEntries c) _
  · rw [p1]
    show (0 : Int) + ((saveEntries c).length : Int) = c.entryCount
    omega
  · intro k
    rw [cacheGet_fst, cacheGet_fst, p3 k]
    have hres : ((lookupA (saveEntries c) k).orElse
        (fun _ => Cache.peek hash (New K V c.maxEntries) k)) =
        lookupA (saveEntries c) k := by
      cases lookupA (saveEntries c) k <;> rfl
    rw [hres]
    exact saveEntries_lookup hash c hwf k

/-- Witness for C3 at a concrete populated cache. -/
theorem claim_C3_witness :
    ∃ c2 : Cache Nat Nat,
      loadStream hashId (saveStream cacheW) = LoadResult.ok c2 ∧
      c2.entryCount = cacheW.entryCount ∧
      c2.maxEntries = cacheW.maxEntries ∧
      (∀ k, (Cache.get hashId c2 k).1 = (Cache.get hashId cacheW k).1) :=
  claim_C3_roundtrip hashId cacheW
    (Reach.set 5 1 (Reach.new 100 (by decide))) (by decide)

theorem gather_foldl_not_mem (c : Cache K V) :
    ∀ (ord : List (Fin shardsCount))
      (t : Fin shardsCount → List (K × V)) (i : Fin shardsCount),
      i ∉ ord →
      ord.foldl (fun t j => Function.update t j (c.shards j).entries) t i =
        t i := by
  intro ord
  induction ord with
  | nil => exact fun t i _ => rfl
  | cons j rest ih =>
    intro t i hmem
    rw [List.foldl_cons]
    rw [ih _ i (fun hr => hmem (List.mem_cons_of_mem _ hr))]
    exact Function.update_noteq
      (fun hEq => hmem (by rw [hEq]; exact List.mem_cons_self _ _)) _ _

theorem gather_foldl_mem (c : Cache K V) :
    ∀ (ord : List (Fin shardsCount))
      (t : Fin shardsCount → List (K × V)) (i : Fin shardsCount),
      i ∈ ord →
      ord.foldl (fun t j => Function.update t j (c.shards j).entries) t i =
        (c.shards i).entries := by
  intro ord
  induction ord with
  | nil =>
    intro t i hmem
    cases hmem
  | cons j rest ih =>
    intro t i hmem
    rw [List.foldl_cons]
    by_cases hir : i ∈ rest
    · exact ih _ i hir
    · have hij : i = j := by
        rcases List.mem_cons.mp hmem with h | h
        · exact h
        · exact absurd h hir
      rw [gather_foldl_not_mem c rest _ i hir, hij, Function.update_same]

/-- C7: with any worker completion order that covers every shard exactly
once, the concurrent save emits exactly the sequential stream: the
capacity header, the total entry count, then every entry in strict
ascending shard-index order; hence any such stream reloads identically. -/
theorem claim_C7_save_concurrency (hash : K → Nat) (c : Cache K V)
    (ord : List (Fin shardsCount))
    (hperm : ord.Perm (List.finRange shardsCount)) :
    saveStreamWith c ord = saveStream c ∧
    saveStream c = Token.num (c.maxEntries : Int) ::
      Token.num (((saveEntries c).length : Nat) : Int) ::
      (saveEntries c).map (fun e => Token.kv e.1 e.2) ∧
    loadStream hash (saveStreamWith c ord) =
      loadStream hash (saveStream c) := by
  have hgather : ∀ i, gatherShards c ord i = (c.shards i).entries := by
    intro i
    exact gather_foldl_mem c ord _ i
      (hperm.mem_iff.mpr (List.mem_finRange i))
  have hmap : (List.finRange shardsCount).map (gatherShards c ord) =
      (List.finRange shardsCount).map (fun i => (c.shards i).entries) :=
    List.map_congr_left (fun i _ => hgather i)
  have hsum : ((List.finRange shardsCount).map
      (fun i => (gatherShards c ord i).length)).sum = saveTotal c := by
    unfold saveTotal
    exact congrArg List.sum
      (List.map_congr_left (fun i _ => by rw [hgather i]))
  have h1 : saveStreamWith c ord = saveStream c := by
    unfold saveStreamWith saveStream saveEntries
    rw [hmap, hsum]
  refine ⟨h1, ?_, by rw [h1]⟩
  unfold saveStream
  rw [saveTotal_eq_length]

/-- Witness for C7 with a reversed completion order. -/
theorem claim_C7_witness :
    saveStreamWith cacheW (List.finRange shardsCount).reverse =
      saveStream cacheW :=
  (claim_C7_save_concurrency hashId cacheW
    (List.finRange shardsCount).reverse
    ((List.finRange shardsCount).reverse_perm)).1

/-- C8: `LoadFromFileOrNew` returns the loaded cache when loading
succeeds, and on every returned error — missing file, empty or truncated
stream, schema mismatch — discards the error and returns a fresh empty
cache of the requested capacity. -/
theorem claim_C8_load_fallback (hash : K → Nat) (mE : Int)
    (hpos : 0 < mE) :
    (∀ file : Option (List (Token K V)),
      loadFromFile hash file = LoadResult.err →
      loadFromFileOrNew hash file mE = LoadResult.ok (New K V mE.toNat)) ∧
    (∀ (file : Option (List (Token K V))) (c0 : Cache K V),
      loadFromFile hash file = LoadResult.ok c0 →
      loadFromFileOrNew hash file mE = LoadResult.ok c0) ∧
    loadFromFileOrNew hash (none : Option (List (Token K V))) mE =
      LoadResult.ok (New K V mE.toNat) ∧
    loadFromFileOrNew hash (some ([] : List (Token K V))) mE =
      LoadResult.ok (New K V mE.toNat) ∧
    (∀ (k : K) (v : V) (rest : List (Token K V)),
      loadFromFileOrNew hash (some (Token.kv k v :: rest)) mE =
        LoadResult.ok (New K V mE.toNat)) ∧
    (∀ n : Int, 0 < n →
      loadFromFileOrNew hash (some [Token.num n]) mE =
        LoadResult.ok (New K V mE.toNat)) := by
  have hne : ¬mE ≤ 0 := by omega
  refine ⟨?_, ?_, ?_, ?_, ?_, ?_⟩
  · intro file hf
    unfold loadFromFileOrNew
    rw [hf]
    simp [hne]
  · intro file c0 hf
    unfold loadFromFileOrNew
    rw [hf]
  · simp [loadFromFileOrNew, loadFromFile, hne]
  · simp [loadFromFileOrNew, loadFromFile, loadStream, hne]
  · intro k v rest
    simp [loadFromFileOrNew, loadFromFile, loadStream, hne]
  · intro n hn
    simp [loadFromFileOrNew, loadFromFile, loadStream, hne,
      show ¬n ≤ 0 by omega]

/-- Witness for C8 on a missing file. -/
theorem claim_C8_witness :
    loadFromFileOrNew hashId (none : Option (List (Token Nat Nat))) 5 =
      LoadResult.ok (New Nat Nat (5 : Int).toNat) :=
  (claim_C8_load_fallback hashId 5 (by decide)).2.2.1

end Snapshot

/-! ### Claim C1 (amended): the sound global capacity bound

Sequential distinct-key inserts keep the live count at most
`maxEntries + shardsCount - 1`: the count can only overshoot capacity
when the acting shard's map is empty (the loop is gated on it), a shard
never becomes empty again under inserts, and on a non-empty shard at
capacity the loop always either drops the counter below capacity or
evicts at least one entry before the insert. -/

section CapacityBound

variable {K V : Type} [DecidableEq K] [Inhabited K]

/-- Sequences of `Set` calls with pairwise-distinct keys from a fresh
cache; `used` records the keys set so far, newest first. -/
inductive SetSeq (hash : K → Nat) : List K → Cache K V → Prop
  | nil (maxEntries : Nat) (h : 0 < maxEntries) :
      SetSeq hash [] (New K V maxEntries)
  | step {used : List K} {c : Cache K V} (k : K) (v : V)
      (h : SetSeq hash used c) (hk : k ∉ used) :
      SetSeq hash (k :: used) (Cache.set hash c k v)

/-- Shards whose map currently holds at least one entry. -/
def nonemptyShards (c : Cache K V) : Finset (Fin shardsCount) :=
  Finset.univ.filter (fun i => (c.shards i).entries.length ≠ 0)

/-- Invariant maintained along distinct-key insert sequences. -/
structure SetInv (hash : K → Nat) (used : List K) (c : Cache K V) : Prop
    where
  pos : 0 < c.maxEntries
  ringLen : ∀ i, (c.shards i).order.length = entriesPerShard c.maxEntries
  wIdxLt : ∀ i, (c.shards i).writeIdx < (c.shards i).order.length
  nodupKeys : ∀ i, ((c.shards i).entries.map Prod.fst).Nodup
  slotN : ∀ i, slotNodup (c.shards i)
  slotM : ∀ i, slotMem (c.shards i)
  hasValid : ∀ i, (c.shards i).entries ≠ [] →
    ∃ j, j < (c.shards i).order.length ∧
      ((c.shards i).order.getD j emptySlot).valid = true
  usedMap : ∀ i, ∀ k0 ∈ (c.shards i).entries.map Prod.fst, k0 ∈ used
  usedSlot : ∀ i j, j < (c.shards i).order.length →
    ((c.shards i).order.getD j emptySlot).valid = true →
    ((c.shards i).order.getD j emptySlot).key ∈ used
  bound : c.entryCount ≤ (c.maxEntries : Int) - 1 +
    ((nonemptyShards c).card : Int)

theorem getD_replicate_lt {α : Type} {n j : Nat} (a d : α) (h : j < n) :
    (List.replicate n a).getD j d = a := by
  induction n generalizing j with
  | zero => omega
  | succ m ih =>
    cases j with
    | zero => rfl
    | succ jj =>
      simpa [List.replicate_succ, List.getD] using ih (by omega)

theorem insertA_length_pos (l : List (K × V)) (k : K) (v : V) :
    0 < (insertA l k v).length := by
  cases l with
  | nil => simp [insertA]
  | cons e t =>
    obtain ⟨k', v'⟩ := e
    by_cases hk : k = k' <;> simp [insertA, hk]

theorem exists_offset {w p0 L : Nat} (hw : w < L) (hp : p0 < L) :
    ∃ j, j < L ∧ (w + j) % L = p0 := by
  refine ⟨(p0 + L - w) % L, Nat.mod_lt _ (by omega), ?_⟩
  rw [Nat.add_mod_mod]
  have h1 : w + (p0 + L - w) = p0 + L := by omega
  rw [h1, Nat.add_mod_right]
  exact Nat.mod_eq_of_lt hp

theorem mem_nonemptyShards (c : Cache K V) (j : Fin shardsCount) :
    j ∈ nonemptyShards c ↔ (c.shards j).entries.length ≠ 0 := by
  simp [nonemptyShards]

/-- Slot-level facts about the miss path (loop followed by insertion). -/
theorem missPath_facts (m : Nat) (s1 : Shard K V) (cnt : Int) (k : K)
    (v : V) (used : List K)
    (habs : lookupA s1.entries k = none)
    (hwix : s1.writeIdx < s1.order.length)
    (hsn : slotNodup s1) (hsm : slotMem s1)
    (huseds : ∀ j, j < s1.order.length →
      (s1.order.getD j emptySlot).valid = true →
      (s1.order.getD j emptySlot).key ∈ used)
    (hkused : k ∉ used) :
    slotNodup (insertFresh k v (evictLoop m s1.order.length (s1, cnt))).1 ∧
    slotMem (insertFresh k v (evictLoop m s1.order.length (s1, cnt))).1 ∧
    (∃ j, j < (insertFresh k v (evictLoop m s1.order.length
        (s1, cnt))).1.order.length ∧
      ((insertFresh k v (evictLoop m s1.order.length
        (s1, cnt))).1.order.getD j emptySlot).valid = true) ∧
    (∀ j, j < (insertFresh k v (evictLoop m s1.order.length
        (s1, cnt))).1.order.length →
      ((insertFresh k v (evictLoop m s1.order.length
        (s1, cnt))).1.order.getD j emptySlot).valid = true →
      ((insertFresh k v (evictLoop m s1.order.length
        (s1, cnt))).1.order.getD j emptySlot).key ∈ k :: used) ∧
    0 < (insertFresh k v (evictLoop m s1.order.length
        (s1, cnt))).1.entries.length := by
  have hL0 : 0 < s1.order.length := by omega
  set q := evictLoop m s1.order.length (s1, cnt) with hq
  have hqlen : q.1.order.length = s1.order.length :=
    evictLoop_length m s1.order.length (s1, cnt)
  have hqw : q.1.writeIdx < q.1.order.length :=
    evictLoop_writeIdx_lt m s1.order.length (s1, cnt) hL0 hwix
  have hqsub : (q.1.entries.map Prod.fst).Sublist
      (s1.entries.map Prod.fst) :=
    evictLoop_keys_sublist m s1.order.length (s1, cnt)
  have hqabs : k ∉ q.1.entries.map Prod.fst := by
    intro hmem
    rw [lookupA_none_iff] at habs
    exact habs (hqsub.mem hmem)
  obtain ⟨hqn, hqm⟩ :=
    evictLoop_slotinv m s1.order.length (s1, cnt) hsn hsm
  have hqslots := evictLoop_slots m s1.order.length (s1, cnt)
  have husedq : ∀ j, j < q.1.order.length →
      (q.1.order.getD j emptySlot).valid = true →
      (q.1.order.getD j emptySlot).key ∈ used := by
    intro j hj hv
    rcases hqslots j with hsame | hinval
    · rw [hsame] at hv ⊢
      rw [hqlen] at hj
      exact huseds j hj hv
    · rw [hinval] at hv
      simp at hv
  have hrorder : (insertFresh k v q).1.order =
      q.1.order.set q.1.writeIdx ⟨k, true⟩ := rfl
  have hrent : (insertFresh k v q).1.entries = insertA q.1.entries k v :=
    rfl
  have hrlen : (insertFresh k v q).1.order.length = q.1.order.length := by
    rw [hrorder, List.length_set]
  have hrkeys : (insertFresh k v q).1.entries.map Prod.fst =
      q.1.entries.map Prod.fst ++ [k] := by
    rw [hrent]
    exact map_fst_insertA_absent v (by rw [lookupA_none_iff]; exact hqabs)
  have hslotW : (insertFresh k v q).1.order.getD q.1.writeIdx emptySlot =
      ⟨k, true⟩ := by
    rw [hrorder]
    exact getD_set_self _ _ _ _ hqw
  have hslotO : ∀ j, j ≠ q.1.writeIdx →
      (insertFresh k v q).1.order.getD j emptySlot =
        q.1.order.getD j emptySlot := by
    intro j hj
    rw [hrorder]
    exact getD_set_ne _ _ _ (fun h => hj h.symm)
  refine ⟨?_, ?_, ?_, ?_, ?_⟩
  · intro a b ha hb hab hva hvb
    rw [hrlen] at ha hb
    by_cases haw : a = q.1.writeIdx
    · by_cases hbw : b = q.1.writeIdx
      · rw [haw, hbw] at hab
        exact absurd rfl hab
      · rw [haw, hslotW]
        rw [hslotO b hbw] at hvb ⊢
        intro hEq
        exact hkused (by
          rw [show k = ((q.1.order.getD b emptySlot).key) from hEq]
          exact husedq b hb hvb)
    · by_cases hbw : b = q.1.writeIdx
      · rw [hbw, hslotW]
        rw [hslotO a haw] at hva ⊢
        intro hEq
        exact hkused (by
          rw [show k = ((q.1.order.getD a emptySlot).key) from hEq.symm]
          exact husedq a ha hva)
      · rw [hslotO a haw] at hva ⊢
        rw [hslotO b hbw] at hvb ⊢
        exact hqn a b ha hb hab hva hvb
  · intro j hj hv
    rw [hrlen] at hj
    by_cases hjw : j = q.1.writeIdx
    · rw [hjw, hslotW, hrkeys]
      exact List.mem_append_right _ (List.mem_singleton.mpr rfl)
    · rw [hslotO j hjw] at hv ⊢
      rw [hrkeys]
      exact List.mem_append_left _ (hqm j hj hv)
  · refine ⟨q.1.writeIdx, ?_, ?_⟩
    · rw [hrlen]
      exact hqw
    · rw [hslotW]
  · intro j hj hv
    rw [hrlen] at hj
    by_cases hjw : j = q.1.writeIdx
    · rw [hjw, hslotW]
      exact List.mem_cons_self _ _
    · rw [hslotO j hjw] at hv ⊢
      exact List.mem_cons_of_mem _ (husedq j hj hv)
  · rw [hrent]
    exact insertA_length_pos _ _ _

/-- Updating one shard preserves the insert-sequence invariant, provided
the new shard state satisfies its local clauses and the counter obeys the
insert-adjusted bound. -/
theorem SetInv_update (hash : K → Nat) {used used' : List K}
    {c : Cache K V} (inv : SetInv hash used c) {i : Fin shardsCount}
    {s' : Shard K V} {n : Int}
    (hsub : ∀ x ∈ used, x ∈ used')
    (hlen : s'.order.length = (c.shards i).order.length)
    (hwix : s'.writeIdx < s'.order.length)
    (hnd : (s'.entries.map Prod.fst).Nodup)
    (hsn : slotNodup s')
    (hsm : slotMem s')
    (hhv : ∃ j, j < s'.order.length ∧
      (s'.order.getD j emptySlot).valid = true)
    (humap : ∀ k0 ∈ s'.entries.map Prod.fst, k0 ∈ used')
    (huslot : ∀ j, j < s'.order.length →
      (s'.order.getD j emptySlot).valid = true →
      (s'.order.getD j emptySlot).key ∈ used')
    (hpos' : 0 < s'.entries.length)
    (hbnd : n ≤ (c.maxEntries : Int) - 1 +
      ((insert i (nonemptyShards c)).card : Int)) :
    SetInv hash used' { c with
      shards := Function.update c.shards i s'
      entryCount := n } := by
  have hshards : ∀ j : Fin shardsCount,
      ({ c with
        shards := Function.update c.shards i s'
        entryCount := n } : Cache K V).shards j =
        if j = i then s' else c.shards j := by
    intro j
    show Function.update c.shards i s' j = _
    rw [Function.update_apply]
  have hins : nonemptyShards ({ c with
      shards := Function.update c.shards i s'
      entryCount := n } : Cache K V) = insert i (nonemptyShards c) := by
    refine Finset.ext ?_
    intro j
    rw [mem_nonemptyShards, Finset.mem_insert, mem_nonemptyShards,
      hshards j]
    by_cases hj : j = i
    · rw [if_pos hj]
      exact iff_of_true (by omega) (Or.inl hj)
    · rw [if_neg hj]
      constructor
      · exact fun h => Or.inr h
      · intro h
        rcases h with h | h
        · exact absurd h hj
        · exact h
  refine ⟨inv.pos, ?_, ?_, ?_, ?_, ?_, ?_, ?_, ?_, ?_⟩
  · intro j
    rw [hshards j]
    by_cases hj : j = i
    · rw [if_pos hj, hlen]
      exact inv.ringLen i
    · rw [if_neg hj]
      exact inv.ringLen j
  · intro j
    rw [hshards j]
    by_cases hj : j = i
    · rw [if_pos hj]
      exact hwix
    · rw [if_neg hj]
      exact inv.wIdxLt j
  · intro j
    rw [hshards j]
    by_cases hj : j = i
    · rw [if_pos hj]
      exact hnd
    · rw [if_neg hj]
      exact inv.nodupKeys j
  · intro j
    rw [hshards j]
    by_cases hj : j = i
    · rw [if_pos hj]
      exact hsn
    · rw [if_neg hj]
      exact inv.slotN j
  · intro j
    rw [hshards j]
    by_cases hj : j = i
    · rw [if_pos hj]
      exact hsm
    · rw [if_neg hj]
      exact inv.slotM j
  · intro j
    rw [hshards j]
    by_cases hj : j = i
    · rw [if_pos hj]
      exact fun _ => hhv
    · rw [if_neg hj]
      exact inv.hasValid j
  · intro j
    rw [hshards j]
    by_cases hj : j = i
    · rw [if_pos hj]
      exact humap
    · rw [if_neg hj]
      exact fun k0 hk0 => hsub k0 (inv.usedMap j k0 hk0)
  · intro j jj
    rw [hshards j]
    by_cases hj : j = i
    · rw [if_pos hj]
      exact huslot jj
    · rw [if_neg hj]
      exact fun hlt hv => hsub _ (inv.usedSlot j jj hlt hv)
  · show n ≤ _
    rw [hins]
    exact hbnd

/-- The invariant holds for a fresh cache. -/
theorem setInv_new (hash : K → Nat) (m : Nat) (hm : 0 < m) :
    SetInv hash ([] : List K) (New K V m) := by
  have hslot : ∀ j, j < entriesPerShard m →
      ((List.replicate (entriesPerShard m) (emptySlot (K := K))).getD j
        emptySlot).valid = false := by
    intro j hj
    rw [getD_replicate_lt _ _ hj]
    rfl
  have hord : ∀ i : Fin shardsCount, ((New K V m).shards i).order =
      List.replicate (entriesPerShard m) (emptySlot (K := K)) :=
    fun _ => rfl
  have hlen2 : ∀ i : Fin shardsCount, ((New K V m).shards i).order.length =
      entriesPerShard m := by
    intro i
    rw [hord i, List.length_replicate]
  refine ⟨hm, fun i => ?_, fun i => ?_, fun i => ?_, fun i => ?_,
    fun i => ?_, fun i hne => ?_, fun i k0 h0 => ?_,
    fun i j hlt hv => ?_, ?_⟩
  · rw [hlen2 i]
    rfl
  · rw [hlen2 i]
    exact entriesPerShard_pos hm
  · show (([] : List (K × V)).map Prod.fst).Nodup
    exact List.nodup_nil
  · intro a b ha hb hab hva hvb
    rw [hlen2 i] at ha
    rw [hord i, hslot a ha] at hva
    simp at hva
  · intro j hj hv
    rw [hlen2 i] at hj
    rw [hord i, hslot j hj] at hv
    simp at hv
  · exact absurd rfl hne
  · cases h0
  · rw [hlen2 i] at hlt
    rw [hord i, hslot j hlt] at hv
    simp at hv
  · show (0 : Int) ≤ (m : Int) - 1 + _
    have h0c : (0 : Int) ≤ ((nonemptyShards (New K V m)).card : Int) :=
      Int.natCast_nonneg _
    omega

/-- One distinct-key `Set` preserves the invariant. -/
theorem setInv_step (hash : K → Nat) {used : List K} {c : Cache K V}
    (inv : SetInv hash used c) (k : K) (v : V) (hk : k ∉ used) :
    SetInv hash (k :: used) (Cache.set hash c k v) := by
  have habs : lookupA (c.shards (shardIdx hash k)).entries k = none := by
    rw [lookupA_none_iff]
    intro hmem
    exact hk (inv.usedMap (shardIdx hash k) k hmem)
  have heq : Cache.set hash c k v = { c with
      shards := Function.update c.shards (shardIdx hash k)
        (insertFresh k v (evictLoop c.maxEntries
          (c.shards (shardIdx hash k)).order.length
          ({ c.shards (shardIdx hash k) with
              setCalls := (c.shards (shardIdx hash k)).setCalls + 1 },
            c.entryCount))).1
      entryCount := (insertFresh k v (evictLoop c.maxEntries
          (c.shards (shardIdx hash k)).order.length
          ({ c.shards (shardIdx hash k) with
              setCalls := (c.shards (shardIdx hash k)).setCalls + 1 },
            c.entryCount))).2 } := by
    simp only [Cache.set]
    rw [shardSet_absent habs]
  obtain ⟨f1, f2, f3, f4, f5, f6⟩ := insert_after_loop_facts c.maxEntries
    { c.shards (shardIdx hash k) with
        setCalls := (c.shards (shardIdx hash k)).setCalls + 1 }
    c.entryCount k v habs (inv.wIdxLt _) (inv.nodupKeys _)
  obtain ⟨g1, g2, g3, g4, g5⟩ := missPath_facts c.maxEntries
    { c.shards (shardIdx hash k) with
        setCalls := (c.shards (shardIdx hash k)).setCalls + 1 }
    c.entryCount k v used habs (inv.wIdxLt _) (inv.slotN _) (inv.slotM _)
    (inv.usedSlot _) hk
  have hbnd : (insertFresh k v (evictLoop c.maxEntries
      (c.shards (shardIdx hash k)).order.length
      ({ c.shards (shardIdx hash k) with
          setCalls := (c.shards (shardIdx hash k)).setCalls + 1 },
        c.entryCount))).2 ≤ (c.maxEntries : Int) - 1 +
      ((insert (shardIdx hash k) (nonemptyShards c)).card : Int) := by
    by_cases hempty : (c.shards (shardIdx hash k)).entries.length = 0
    · -- empty acting shard: the loop is gated off; the count goes up by 1
      have hqid : evictLoop c.maxEntries
          (c.shards (shardIdx hash k)).order.length
          ({ c.shards (shardIdx hash k) with
              setCalls := (c.shards (shardIdx hash k)).setCalls + 1 },
            c.entryCount) =
          ({ c.shards (shardIdx hash k) with
              setCalls := (c.shards (shardIdx hash k)).setCalls + 1 },
            c.entryCount) := by
        refine evictLoop_gate_false ?_ _
        intro hc
        have h2 : (c.shards (shardIdx hash k)).entries.length > 0 := hc.2
        omega
      rw [hqid]
      have hnm : shardIdx hash k ∉ nonemptyShards c := by
        rw [mem_nonemptyShards]
        intro hcon
        exact hcon hempty
      rw [Finset.card_insert_of_not_mem hnm]
      have hb := inv.bound
      show c.entryCount + 1 ≤ _
      push_cast
      omega
    · -- non-empty acting shard
      have hmem : shardIdx hash k ∈ nonemptyShards c := by
        rw [mem_nonemptyShards]
        exact hempty
      rw [Finset.insert_eq_self.mpr hmem]
      have hcard1 : 0 < (nonemptyShards c).card :=
        Finset.card_pos.mpr ⟨shardIdx hash k, hmem⟩
      have hb := inv.bound
      by_cases hcnt : c.entryCount < (c.maxEntries : Int)
      · -- below capacity: the loop is gated off
        have hqid : evictLoop c.maxEntries
            (c.shards (shardIdx hash k)).order.length
            ({ c.shards (shardIdx hash k) with
                setCalls := (c.shards (shardIdx hash k)).setCalls + 1 },
              c.entryCount) =
            ({ c.shards (shardIdx hash k) with
                setCalls := (c.shards (shardIdx hash k)).setCalls + 1 },
              c.entryCount) := by
          refine evictLoop_gate_false ?_ _
          intro hc
          have h1 : (c.maxEntries : Int) ≤ c.entryCount := hc.1
          omega
        rw [hqid]
        show c.entryCount + 1 ≤ _
        omega
      · -- at capacity on a non-empty shard: the loop makes progress
        push_neg at hcnt
        have hne2 : (c.shards (shardIdx hash k)).entries ≠ [] := by
          intro hEq
          rw [hEq] at hempty
          exact hempty rfl
        obtain ⟨p0, hp0L, hp0v⟩ := inv.hasValid (shardIdx hash k) hne2
        have hp0k := inv.slotM (shardIdx hash k) p0 hp0L hp0v
        obtain ⟨j, hjL, hjeq⟩ :=
          exists_offset (inv.wIdxLt (shardIdx hash k)) hp0L
        have hprog := evictLoop_progress c.maxEntries
          (c.shards (shardIdx hash k)).order.length
          ({ c.shards (shardIdx hash k) with
              setCalls := (c.shards (shardIdx hash k)).setCalls + 1 },
            c.entryCount)
          (inv.wIdxLt (shardIdx hash k)) (le_refl _)
          ⟨j, hjL, by rw [hjeq]; exact hp0v, by
            rw [hjeq, lookupA_isSome_iff]
            exact hp0k⟩
        have hr2 : (insertFresh k v (evictLoop c.maxEntries
            (c.shards (shardIdx hash k)).order.length
            ({ c.shards (shardIdx hash k) with
                setCalls := (c.shards (shardIdx hash k)).setCalls + 1 },
              c.entryCount))).2 = (evictLoop c.maxEntries
            (c.shards (shardIdx hash k)).order.length
            ({ c.shards (shardIdx hash k) with
                setCalls := (c.shards (shardIdx hash k)).setCalls + 1 },
              c.entryCount)).2 + 1 := rfl
        rw [hr2]
        rcases hprog with hp | hp
        · omega
        · omega
  rw [heq]
  refine SetInv_update hash inv (fun x hx => List.mem_cons_of_mem _ hx)
    f1 f2 f3 g1 g2 g3 ?_ g4 g5 hbnd
  intro k0 hk0
  rcases f4 k0 hk0 with h | h
  · rw [h]
    exact List.mem_cons_self _ _
  · exact List.mem_cons_of_mem _ (inv.usedMap _ k0 h)

/-- Every distinct-key insert sequence satisfies the invariant. -/
theorem SetSeq_inv (hash : K → Nat) {used : List K} {c : Cache K V}
    (h : SetSeq hash used c) : SetInv hash used c := by
  induction h with
  | nil m hm => exact setInv_new hash m hm
  | step k v _ hk ih => exact setInv_step hash ih k v hk

/-- C1 (amended): for a freshly constructed cache of capacity C, after
any sequence of sequential `Set` calls with pairwise-distinct keys and no
deletes, the live entry count never exceeds C + shardsCount - 1
(= C + 511).  The originally claimed bound C, and the claim that the
first k of C + k inserted keys become unretrievable, both fail on the
code (see the counterexample): eviction is gated on the acting shard's
own map and scans only that shard's ring. -/
theorem claim_C1_amended (hash : K → Nat) (used : List K) (c : Cache K V)
    (h : SetSeq hash used c) :
    Cache.len c ≤ (c.maxEntries : Int) + (shardsCount : Int) - 1 := by
  have inv := SetSeq_inv hash h
  have hb := inv.bound
  have hcard : (nonemptyShards c).card ≤ shardsCount := by
    calc (nonemptyShards c).card ≤ (Finset.univ :
        Finset (Fin shardsCount)).card := Finset.card_filter_le _ _
      _ = shardsCount := by rw [Finset.card_univ, Fintype.card_fin]
  show c.entryCount ≤ _
  omega

/-- Witness for the amended C1 bound at a concrete insert sequence. -/
theorem claim_C1_amended_witness :
    Cache.len (Cache.set hashId
        (Cache.set hashId (New Nat Nat 1) 0 10) 1 11) ≤
      (((Cache.set hashId (Cache.set hashId (New Nat Nat 1) 0 10)
        1 11).maxEntries : Int)) + (shardsCount : Int) - 1 :=
  claim_C1_amended hashId [1, 0] _
    (SetSeq.step 1 11 (SetSeq.step 0 10 (SetSeq.nil 1 (by decide))
      (by decide)) (by decide))

end CapacityBound

end Fastcache
